import Mathlib

/-!
Verification model of the markdown → JSON documentation pipeline in
`src/scripts/api.js` (the `parseMarkdownForLLM` / `generateLLMOptimizedAPI`
pipeline).

JavaScript strings are modelled as Lean `String` (treated as a packed
`List Char`); all primitive operations (split, trim, regex matches used by
the source) are re-implemented structurally below so that every definition
is executable by the kernel.  JS `Number` arithmetic in the complexity
score is modelled with exact rationals `ℚ`.  Filesystem access
(`fs.readFileSync`, `fs.statSync`, `fs.writeFileSync`) is modelled by
passing file contents in and returning the generated artifacts as data.
-/

namespace StunkDocs

/-- Set of characters matched by the JavaScript `\s` regex class, which is
also the set trimmed by `String.prototype.trim`. -/
def isWs (c : Char) : Bool :=
  c = ' ' || c = '\t' || c = '\n' || c = '\r' || c.val = 11 || c.val = 12 ||
  c.val = 0xa0 || c.val = 0x1680 || (0x2000 ≤ c.val && c.val ≤ 0x200a) ||
  c.val = 0x2028 || c.val = 0x2029 || c.val = 0x202f || c.val = 0x205f ||
  c.val = 0x3000 || c.val = 0xfeff

/-- Characters matched by the JavaScript `\w` regex class. -/
def isWordChar (c : Char) : Bool :=
  ('a' ≤ c && c ≤ 'z') || ('A' ≤ c && c ≤ 'Z') || ('0' ≤ c && c ≤ '9') || c = '_'

/-- ASCII model of JS `toLowerCase` on one character. -/
def lowerChar (c : Char) : Char :=
  if 'A' ≤ c && c ≤ 'Z' then Char.ofNat (c.toNat + 32) else c

/-- Model of JS `String.prototype.toLowerCase` (ASCII range). -/
def strLower (s : String) : String := ⟨s.data.map lowerChar⟩

/-- Boolean prefix test on character lists. -/
def prefixB : List Char → List Char → Bool
  | [], _ => true
  | _ :: _, [] => false
  | a :: as, b :: bs => a = b && prefixB as bs

/-- Boolean substring search: does `hay` contain `needle`?  Model of JS
`String.prototype.includes`. -/
def containsB : List Char → List Char → Bool
  | [], needle => needle.isEmpty
  | h :: t, needle => prefixB needle (h :: t) || containsB t needle

/-- Model of JS `hay.includes(needle)`. -/
def strIncludes (hay needle : String) : Bool := containsB hay.data needle.data

/-- Model of JS `s.startsWith(p)`. -/
def strStartsWith (s p : String) : Bool := prefixB p.data s.data

/-- Splitting a character list at a separator character; mirrors JS
`s.split(sep)` for a one-character separator (n separators produce n+1
pieces, empties kept). -/
def splitChar (sep : Char) : List Char → List (List Char)
  | [] => [[]]
  | c :: cs =>
    if c = sep then [] :: splitChar sep cs
    else
      match splitChar sep cs with
      | [] => [[c]]
      | h :: t => (c :: h) :: t

/-- Newline split at the character level. -/
def splitNl : List Char → List (List Char) := splitChar '\n'

/-- Model of JS `markdown.split('\n')`. -/
def jsSplitLines (s : String) : List String := (splitNl s.data).map (⟨·⟩)

/-- Interleave a newline between character lists; mirrors JS
`lines.join('\n')` at the character level. -/
def joinNl : List (List Char) → List Char
  | [] => []
  | [x] => x
  | x :: y :: t => x ++ '\n' :: joinNl (y :: t)

/-- Model of JS `lines.join('\n')`. -/
def jsJoinLines (ls : List String) : String := ⟨joinNl (ls.map String.data)⟩

/-- Drop trailing whitespace from a character list. -/
def rdropWs (cs : List Char) : List Char := ((cs.reverse).dropWhile isWs).reverse

/-- Model of JS `String.prototype.trim` (drops leading and trailing
whitespace and line terminators). -/
def jsTrim (s : String) : String := ⟨(rdropWs s.data).dropWhile isWs⟩

/-- Leading-`#` count of a line. -/
def hashCount (l : String) : Nat := (l.data.takeWhile (· = '#')).length

/-- Model of `line.match(/^(#{1,6})\s+(.+)$/)`: on success returns the
captured heading level (number of leading `#`) and heading text.  The
greedy `#{1,6}` followed by `\s` fails when seven or more `#` lead the
line; greedy `\s+` backtracks to leave at least one character for `(.+)`,
so a line of `#`s followed only by two-or-more whitespace characters
matches with a single whitespace character as the heading text. -/
def headingMatch (l : String) : Option (Nat × String) :=
  let cs := l.data
  let k := (cs.takeWhile (· = '#')).length
  if 1 ≤ k ∧ k ≤ 6 then
    let r := cs.drop k
    let w := (r.takeWhile isWs).length
    if w = 0 then none
    else if w = r.length then
      if 2 ≤ r.length then some (k, ⟨r.drop (r.length - 1)⟩) else none
    else some (k, ⟨r.drop w⟩)
  else none

/-- Collapse each whitespace run to a single dash; the flag records whether
the previous character was part of a run.  Models `replace(/\s+/g, '-')`. -/
def wsToDash : Bool → List Char → List Char
  | _, [] => []
  | inRun, c :: rest =>
    if isWs c then
      if inRun then wsToDash true rest else '-' :: wsToDash true rest
    else c :: wsToDash false rest

/-- Model of the section id derivation in `extractSections`:
`heading.toLowerCase().replace(/[^\w\s-]/g, '').replace(/\s+/g, '-')`. -/
def headingId (heading : String) : String :=
  let lowered := heading.data.map lowerChar
  let cleaned := lowered.filter (fun c => isWordChar c || isWs c || c = '-')
  ⟨wsToDash false cleaned⟩

/-- Decimal digit test (JS `\d`). -/
def isDigitB (c : Char) : Bool := '0' ≤ c && c ≤ '9'

/-- Model of the list detection
`line.match(/^[\s]*[-*+]\s+/) || line.match(/^[\s]*\d+\.\s+/)`. -/
def isListLine (l : String) : Bool :=
  let rest := l.data.dropWhile isWs
  match rest with
  | [] => false
  | c :: t =>
    if c = '-' || c = '*' || c = '+' then
      match t with
      | [] => false
      | d :: _ => isWs d
    else
      let ds := rest.takeWhile isDigitB
      if ds.length = 0 then false
      else
        match rest.drop ds.length with
        | '.' :: e :: _ => isWs e
        | _ => false

/-- One parse attempt of `\[([^\]]+)\]\(([^)]+)\)` anchored at the head of
the input: returns the captured text, url and the remaining characters. -/
def linkAt : List Char → Option (String × String × List Char)
  | '[' :: rest =>
    let text := rest.takeWhile (· ≠ ']')
    if text.length = 0 then none
    else
      match rest.drop text.length with
      | ']' :: '(' :: rest2 =>
        let url := rest2.takeWhile (· ≠ ')')
        if url.length = 0 then none
        else
          match rest2.drop url.length with
          | ')' :: rest3 => some (⟨text⟩, ⟨url⟩, rest3)
          | _ => none
      | _ => none
  | _ => none

/-- Global scan of `line.match(/\[([^\]]+)\]\(([^)]+)\)/g)` followed by the
per-match destructuring in `extractSections`; fuel bounds the scan. -/
def findLinksAux : Nat → List Char → List (String × String)
  | 0, _ => []
  | _ + 1, [] => []
  | fuel + 1, c :: rest =>
    match linkAt (c :: rest) with
    | some (text, url, rest2) => (text, url) :: findLinksAux fuel rest2
    | none => findLinksAux fuel rest

/-- All `[text](url)` links of a line, in order. -/
def findLinks (l : String) : List (String × String) :=
  findLinksAux l.data.length l.data

/-- Fence test `line.startsWith('```')` used by both extractors. -/
def isFence (l : String) : Bool :=
  prefixB ['`', '`', '`'] l.data

/-- Fence info string: `lines[i].slice(3).trim() || 'plaintext'`. -/
def fenceLanguage (l : String) : String :=
  let lang := jsTrim ⟨l.data.drop 3⟩
  if lang = "" then "plaintext" else lang

/-- Code block record produced by `extractCodeBlockFromLine` (section-local
blocks carry no `purpose` field). -/
structure CodeBlock where
  language : String
  code : String
  lineCount : Nat
deriving DecidableEq, Repr

/-- Code block record of the flat extractor `extractCodeBlocks`. -/
structure CodeExample where
  language : String
  code : String
  lineCount : Nat
  purpose : String
deriving DecidableEq, Repr

/-- Model of `detectCodePurpose(code, language)`: priority-ordered keyword
heuristic over the lower-cased code body (the `language` argument is unused
by the source as well). -/
def detectCodePurpose (code : String) (_language : String) : String :=
  let lowerCode := strLower code
  if strIncludes lowerCode "test" || strIncludes lowerCode "expect" then "test"
  else if strIncludes lowerCode "example" || strIncludes lowerCode "const" then "example"
  else if strIncludes lowerCode "interface" || strIncludes lowerCode "type" then "type-definition"
  else "implementation"

/-- Model of `extractCodeBlockFromLine(lines, startIndex)`: `line` is
`lines[startIndex]` and `rest` the following lines.  The inner `while`
collects lines until the next fence line or the end of the document. -/
def extractCodeBlockFromLine (line : String) (rest : List String) : Option CodeBlock :=
  if isFence line then
    let codeLines := rest.takeWhile (fun l => ¬ isFence l)
    some ⟨fenceLanguage line, jsJoinLines codeLines, codeLines.length⟩
  else none

/-- Scan state of the flat code-block extractor: either outside any fence,
or inside a block opened with the given info string, having collected the
given body lines. -/
inductive CbState where
  | outside : CbState
  | inside (language : String) (acc : List String) : CbState
deriving DecidableEq, Repr

/-- Flat block record assembled when a fence closes (or input ends). -/
def mkExample (language : String) (acc : List String) : CodeExample :=
  ⟨language, jsJoinLines acc, acc.length, detectCodePurpose (jsJoinLines acc) language⟩

/-- Single pass of `extractCodeBlocks` over the line list.  The source's
`for` loop with inner `while` is rendered as a line-by-line automaton: a
fence line opens a block when outside and closes the current block when
inside (the closing line is consumed, matching the outer `i++`); an
unterminated block is still emitted at end of input. -/
def cbLoop : List String → CbState → List CodeExample
  | [], .outside => []
  | [], .inside lang acc => [mkExample lang acc]
  | l :: rest, .outside =>
    if isFence l then cbLoop rest (.inside (fenceLanguage l) [])
    else cbLoop rest .outside
  | l :: rest, .inside lang acc =>
    if isFence l then mkExample lang acc :: cbLoop rest .outside
    else cbLoop rest (.inside lang (acc ++ [l]))

/-- Lines-level flat extractor. -/
def extractCodeBlocksL (lines : List String) : List CodeExample :=
  cbLoop lines .outside

/-- Model of `extractCodeBlocks(markdown)`. -/
def extractCodeBlocks (markdown : String) : List CodeExample :=
  extractCodeBlocksL (jsSplitLines markdown)

/-- State transition of the flat extractor on one line. -/
def cbNext (st : CbState) (l : String) : CbState :=
  match st with
  | .outside => if isFence l then .inside (fenceLanguage l) [] else .outside
  | .inside lang acc => if isFence l then .outside else .inside lang (acc ++ [l])

/-- Does the flat extractor, started in state `st`, consume the line at
index `j` as part of a code block body (not as a fence line)? -/
def inBodyAux : List String → CbState → Nat → Bool
  | [], _, _ => false
  | l :: rest, st, j =>
    match j with
    | 0 =>
      (match st with
       | .inside _ _ => ¬ isFence l
       | .outside => false)
    | j + 1 => inBodyAux rest (cbNext st l) j

/-- Line `j` of the document lies inside a fenced body of the flat scan. -/
def inCodeBody (lines : List String) (j : Nat) : Bool :=
  inBodyAux lines .outside j

/-- Line consisting of whitespace only. -/
def lineAllWs (l : String) : Bool := l.data.all isWs

/-- Leading-whitespace-stripped line. -/
def ldLine (l : String) : String := ⟨l.data.dropWhile isWs⟩

/-- Trailing-whitespace-stripped line. -/
def rdLine (l : String) : String := ⟨rdropWs l.data⟩

/-- Well-fenced line sequences: a mix of non-fence lines that do not turn
into fence lines when their indentation is stripped, and complete fenced
blocks (opening fence, fence-free body, closing fence).  Such a sequence
is scanned by the flat extractor without any fence left open. -/
inductive Chunked : List String → Prop
  | nil : Chunked []
  | out (l : String) (rest : List String) (h : isFence (ldLine l) = false)
      (hr : Chunked rest) : Chunked (l :: rest)
  | block (o : String) (body : List String) (c : String) (rest : List String)
      (ho : isFence o = true) (hb : ∀ x ∈ body, isFence x = false)
      (hc : isFence c = true) (hr : Chunked rest) :
      Chunked (o :: (body ++ c :: rest))

/-- Effect of `String.trim` on the leading lines of a joined buffer:
whitespace-only leading lines are dropped and the first remaining line
loses its leading whitespace. -/
def leftTrimLines : List String → List String
  | [] => [""]
  | [x] => [ldLine x]
  | x :: xs => if x.data.dropWhile isWs = [] then leftTrimLines xs else ldLine x :: xs

/-- Effect of `String.trim` on the trailing lines of a joined buffer. -/
def rightTrimLines : List String → List String
  | [] => [""]
  | x :: xs => if xs.all lineAllWs then [rdLine x] else x :: rightTrimLines xs

/-- Line-level description of `jsTrim` applied to a joined buffer. -/
def trimLines (ls : List String) : List String := leftTrimLines (rightTrimLines ls)

/-- Lines of a document presented as heading-led segments: each pair is a
heading line together with the body lines running to the next heading. -/
def docLines : List (String × List String) → List String
  | [] => []
  | p :: t => p.1 :: (p.2 ++ docLines t)

/-- Section entity of `extractSections`.  The source's `contentPlain`
(markdown-stripped rendering of `content`) is not modelled: no analysed
property refers to it. -/
structure Section where
  id : String
  level : Nat
  heading : String
  content : String
  lineNumber : Nat
  codeBlocks : List CodeBlock
  lists : List String
  links : List (String × String)
deriving DecidableEq, Repr

/-- Fresh section opened at a heading line (0-based index `i`). -/
def mkSection (level : Nat) (heading : String) (i : Nat) : Section :=
  ⟨headingId heading, level, heading, "", i + 1, [], [], []⟩

/-- Close the accumulating section: its content is the joined, trimmed
buffer of the lines seen since its heading. -/
def closeSection (s : Section) (buf : List String) : Section :=
  { s with content := jsTrim (jsJoinLines buf) }

/-- Per-line enrichment of the current section while accumulating: nested
code blocks (delegated on every line starting with three backticks), list
items, links.  `rest` is the remainder of the document after the line. -/
def scanLine (s : Section) (line : String) (rest : List String) : Section :=
  let s1 :=
    if isFence line then
      match extractCodeBlockFromLine line rest with
      | some cb => { s with codeBlocks := s.codeBlocks ++ [cb] }
      | none => s
    else s
  let s2 := if isListLine line then { s1 with lists := s1.lists ++ [jsTrim line] } else s1
  { s2 with links := s2.links ++ findLinks line }

/-- Main loop of `extractSections`: `i` is the index of the next line,
`acc` the currently accumulating section with its content buffer. -/
def sectionsLoop : List String → Nat → Option (Section × List String) → List Section
  | [], _, none => []
  | [], _, some (s, buf) => [closeSection s buf]
  | line :: rest, i, acc =>
    match headingMatch line with
    | some (level, heading) =>
      (match acc with
       | none => []
       | some (s, buf) => [closeSection s buf]) ++
      sectionsLoop rest (i + 1) (some (mkSection level heading i, []))
    | none =>
      match acc with
      | none => sectionsLoop rest (i + 1) none
      | some (s, buf) => sectionsLoop rest (i + 1) (some (scanLine s line rest, buf ++ [line]))

/-- Lines-level section extractor. -/
def extractSectionsL (lines : List String) : List Section :=
  sectionsLoop lines 0 none

/-- Model of `extractSections(markdown)`. -/
def extractSections (markdown : String) : List Section :=
  extractSectionsL (jsSplitLines markdown)

/-- Node of the hierarchical table of contents. -/
inductive TocNode where
  | mk (id : String) (heading : String) (level : Nat) (children : List TocNode) : TocNode
deriving Repr

/-- Open ancestor frame of the TOC builder: its children list is still
being extended (in the source, children are pushed into the node object
while it sits on the stack). -/
structure TocFrame where
  id : String
  heading : String
  level : Nat
  children : List TocNode
deriving Repr

/-- Close the top frame into a finished node. -/
def frameNode (f : TocFrame) : TocNode := .mk f.id f.heading f.level f.children

/-- Carry a just-closed node downward: it is attached as a child of the
next frame, which is itself popped while its level is still ≥ `lvl`. -/
def tocPopCarry (node : TocNode) : List TocFrame → List TocNode → Nat → List TocFrame × List TocNode
  | [], root, _ => ([], root ++ [node])
  | g :: gs, root, lvl =>
    let g' := { g with children := g.children ++ [node] }
    if lvl ≤ g'.level then tocPopCarry (frameNode g') gs root lvl
    else (g' :: gs, root)

/-- Pop frames whose level is ≥ the incoming section level, attaching each
closed node as a child of the frame below (or of the virtual root when the
stack empties).  Mirrors the `while (stack.length > 1 && ...)` loop; the
virtual level-0 root is represented by the `root` list itself. -/
def tocPop : List TocFrame → List TocNode → Nat → List TocFrame × List TocNode
  | [], root, _ => ([], root)
  | f :: fs, root, lvl =>
    if lvl ≤ f.level then tocPopCarry (frameNode f) fs root lvl
    else (f :: fs, root)

/-- Process one section: pop to the correct ancestor, then push the new
node's frame (the source attaches the node to its parent here; in this
functional rendering attachment happens when the frame is closed). -/
def tocStep (st : List TocFrame × List TocNode) (s : Section) : List TocFrame × List TocNode :=
  let (stack, root) := tocPop st.1 st.2 s.level
  (⟨s.id, s.heading, s.level, []⟩ :: stack, root)

/-- Attach a just-closed node to the next remaining frame while flushing. -/
def tocFlushCarry (node : TocNode) : List TocFrame → List TocNode → List TocNode
  | [], root => root ++ [node]
  | g :: gs, root => tocFlushCarry (frameNode { g with children := g.children ++ [node] }) gs root

/-- Close all remaining frames at end of input. -/
def tocFlush : List TocFrame → List TocNode → List TocNode
  | [], root => root
  | f :: fs, root => tocFlushCarry (frameNode f) fs root

/-- Model of `buildTableOfContents(sections)`. -/
def buildTableOfContents (sections : List Section) : List TocNode :=
  let (stack, root) := sections.foldl tocStep ([], [])
  tocFlush stack root

/-- Front-matter keys recognised by the pipeline; `none` models an absent
key.  Parsing of the raw front-matter block (`gray-matter`) is outside the
modelled pipeline: every consumer receives the parsed object. -/
structure Frontmatter where
  title : Option String := none
  description : Option String := none
  tags : Option (List String) := none
  category : Option String := none
deriving DecidableEq, Repr

/-- JS truthiness of an optional string: absent and empty are falsy. -/
def truthy : Option String → Option String
  | some s => if s = "" then none else some s
  | none => none

/-- Model of the JS `a || b` fallback on strings. -/
def jsOr (a : Option String) (b : String) : String := (truthy a).getD b

/-- First occurrence of three consecutive backticks; returns the characters
after it.  Used for the lazy regex `/```[\s\S]*?```/`. -/
def findClose : List Char → Option (List Char)
  | '`' :: '`' :: '`' :: rest => some rest
  | _ :: rest => findClose rest
  | [] => none

/-- Triple-backtick prefix test at the character level. -/
def tripleAt : List Char → Bool
  | '`' :: '`' :: '`' :: _ => true
  | _ => false

/-- Global replacement `markdown.replace(/```[\s\S]*?```/g, '')`: each
fence-to-next-fence span (lazy match) is removed; an opener with no later
triple backtick stays (the regex cannot match anywhere at or after it).
Fuel bounds the scan; callers pass the input length. -/
def removeFencesAux : Nat → List Char → List Char
  | 0, cs => cs
  | _ + 1, [] => []
  | fuel + 1, c :: rest =>
    if tripleAt (c :: rest) then
      match findClose (rest.drop 2) with
      | some suffix => removeFencesAux fuel suffix
      | none => c :: rest
    else c :: removeFencesAux fuel rest

/-- Model of `markdown.replace(/```[\s\S]*?```/g, '')`. -/
def removeFences (s : String) : String := ⟨removeFencesAux s.data.length s.data⟩

/-- Model of JS `s.split(/\s+/)`: pieces between maximal whitespace runs,
with an empty leading (resp. trailing) piece when the string starts
(resp. ends) with whitespace.  The flag records whether the scan is inside
a whitespace run. -/
def wsSplitAux : Bool → List Char → List Char → List (List Char)
  | _, cur, [] => [cur.reverse]
  | inRun, cur, c :: rest =>
    if isWs c then
      if inRun then wsSplitAux true cur rest
      else cur.reverse :: wsSplitAux true [] rest
    else wsSplitAux false (c :: cur) rest

/-- Whitespace split of a string. -/
def wsSplit (s : String) : List String := (wsSplitAux false [] s.data).map (⟨·⟩)

/-- Model of `countWords(text)`: whitespace tokens of the text with fenced
code blocks removed. -/
def countWords (text : String) : Nat :=
  ((wsSplit (removeFences text)).filter (fun w => w.length > 0)).length

/-- Split on the two-character separator used by `generateSummary`
(`withoutCode.split('\n\n')`), scanning left to right without overlap. -/
def splitPara (cur : List Char) : List Char → List (List Char)
  | c1 :: c2 :: rest =>
    if c1 = '\n' ∧ c2 = '\n' then cur.reverse :: splitPara [] rest
    else splitPara (c1 :: cur) (c2 :: rest)
  | [c] => [(c :: cur).reverse]
  | [] => [cur.reverse]

/-- Model of `generateSummary(markdown)`: first trimmed, non-empty,
non-heading paragraph of the code-stripped body, truncated to 200
characters with an ellipsis. -/
def generateSummary (markdown : String) : String :=
  let withoutCode := removeFences markdown
  let paragraphs := ((splitPara [] withoutCode.data).map (fun p => jsTrim ⟨p⟩)).filter
    (fun p => p ≠ "" && ¬ strStartsWith p "#")
  let firstParagraph := paragraphs.headD ""
  if firstParagraph.data.length > 200 then ⟨firstParagraph.data.take 197⟩ ++ "..."
  else firstParagraph

/-- Lower/upper ASCII letter tests used by the camel-case scanner. -/
def isLowerB (c : Char) : Bool := 'a' ≤ c && c ≤ 'z'

/-- Upper-case ASCII test. -/
def isUpperB (c : Char) : Bool := 'A' ≤ c && c ≤ 'Z'

/-- ASCII letter test. -/
def isLetterB (c : Char) : Bool := isLowerB c || isUpperB c

/-- One anchored attempt of `[a-z]+[A-Z][a-zA-Z]*` with a trailing `\b`:
returns the match and the remainder.  The leading `[a-z]+` is necessarily
the maximal lower-case run, and on a failed trailing boundary every
backtrack also fails, so the attempt is deterministic. -/
def camelAt (cs : List Char) : Option (List Char × List Char) :=
  let low := cs.takeWhile isLowerB
  if low.length = 0 then none
  else
    match cs.drop low.length with
    | u :: rest =>
      if isUpperB u then
        let tail := rest.takeWhile isLetterB
        match rest.drop tail.length with
        | [] => some (low ++ u :: tail, [])
        | d :: rest2 =>
          if isWordChar d then none
          else some (low ++ u :: tail, d :: rest2)
      else none
    | [] => none

/-- Global scan of `markdown.match(/\b[a-z]+[A-Z][a-zA-Z]*\b/g)`; `prev`
carries the character before the current position for the leading `\b`. -/
def camelAux : Nat → Option Char → List Char → List String
  | 0, _, _ => []
  | _ + 1, _, [] => []
  | fuel + 1, prev, c :: rest =>
    let boundary := match prev with
      | none => true
      | some p => ¬ isWordChar p
    match if boundary then camelAt (c :: rest) else none with
    | some (m, rest2) => (⟨m⟩ : String) :: camelAux fuel (some (m.getLastD ' ')) rest2
    | none => camelAux fuel (some c) rest

/-- All camelCase/PascalCase-with-lower-start tokens of the text, in order
(the technical-term regex of `extractKeywords` and `estimateComplexity`). -/
def technicalTerms (s : String) : List String := camelAux s.data.length none s.data

/-- One anchored attempt of `(function|const|let|var)\s+(\w+)` (alternation
tried in source order): returns the captured identifier and remainder. -/
def declAt (cs : List Char) : Option (List Char × List Char) :=
  let tryKw : List Char → Option (List Char) := fun kw =>
    if prefixB kw cs then some (cs.drop kw.length) else none
  let afterKw :=
    match tryKw "function".data with
    | some r => some r
    | none => match tryKw "const".data with
      | some r => some r
      | none => match tryKw "let".data with
        | some r => some r
        | none => tryKw "var".data
  match afterKw with
  | none => none
  | some r =>
    let ws := r.takeWhile isWs
    if ws.length = 0 then none
    else
      let r2 := r.drop ws.length
      let name := r2.takeWhile isWordChar
      if name.length = 0 then none
      else some (name, r2.drop name.length)

/-- Global scan of `markdown.match(/\b(function|const|let|var)\s+(\w+)/g)`
followed by the per-match `split(/\s+/).pop()` that keeps the identifier. -/
def declNamesAux : Nat → Option Char → List Char → List String
  | 0, _, _ => []
  | _ + 1, _, [] => []
  | fuel + 1, prev, c :: rest =>
    let boundary := match prev with
      | none => true
      | some p => ¬ isWordChar p
    match if boundary then declAt (c :: rest) else none with
    | some (name, rest2) => (⟨name⟩ : String) :: declNamesAux fuel (some (name.getLastD ' ')) rest2
    | none => declNamesAux fuel (some c) rest

/-- All identifiers following `function`/`const`/`let`/`var`, in order. -/
def declNames (s : String) : List String := declNamesAux s.data.length none s.data

/-- Heading-line test (the `gm` heading regex of `extractKeywords` matches
exactly the lines matched by the per-line heading regex, as full lines). -/
def isHeadingLine (l : String) : Bool := (headingMatch l).isSome

/-- Model of `heading.replace(/^#+\s+/, '')`. -/
def stripHashWs (l : String) : String :=
  let cs := l.data
  let ks := cs.takeWhile (· = '#')
  if ks.length = 0 then l
  else
    let r := cs.drop ks.length
    let ws := r.takeWhile isWs
    if ws.length = 0 then l else ⟨r.drop ws.length⟩

/-- Per-word cleaning `word.toLowerCase().replace(/[^\w]/g, '')`. -/
def cleanWord (w : String) : String := ⟨(w.data.map lowerChar).filter isWordChar⟩

/-- Keyword candidates contributed by one heading line. -/
def headingWords (l : String) : List String :=
  (wsSplit (stripHashWs l)).filterMap (fun w =>
    let cleaned := cleanWord w
    if cleaned.length > 3 then some cleaned else none)

/-- Ordered stream of keyword insertions performed by `extractKeywords`:
front-matter tags (lower-cased), heading words, camelCase technical terms
(added verbatim), declaration identifiers (added verbatim). -/
def keywordStream (markdown : String) (frontmatter : Frontmatter) : List String :=
  (match frontmatter.tags with
   | some tags => tags.map strLower
   | none => []) ++
  ((jsSplitLines markdown).filter isHeadingLine).flatMap headingWords ++
  technicalTerms markdown ++
  declNames markdown

/-- Insertion into the JS `Set` (exact string equality, first wins). -/
def setAdd (acc : List String) (x : String) : List String :=
  if x ∈ acc then acc else acc ++ [x]

/-- Model of `extractKeywords(markdown, frontmatter)`:
`Array.from(keywords).slice(0, 20)`. -/
def extractKeywords (markdown : String) (frontmatter : Frontmatter) : List String :=
  ((keywordStream markdown frontmatter).foldl setAdd []).take 20

/-- Model of `determineContentType(markdown, frontmatter)`. -/
def determineContentType (markdown : String) (frontmatter : Frontmatter) : String :=
  let content := strLower markdown
  if strIncludes content "api" || strIncludes content "reference" then "api-reference"
  else if strIncludes content "tutorial" || strIncludes content "guide" then "tutorial"
  else if strIncludes content "example" then "example"
  else if strIncludes content "installation" || strIncludes content "setup" then "setup-guide"
  else
    match truthy frontmatter.category with
    | some c => c
    | none => "documentation"

/-- Complexity score of `estimateComplexity`; JS number arithmetic is
modelled exactly with rationals. -/
def complexityScore (markdown : String) (codeBlocks : List CodeExample) : ℚ :=
  (codeBlocks.length : ℚ) * 2 +
  min ((technicalTerms markdown).length / 5 : ℚ) 10 +
  min ((countWords markdown : ℚ) / 200) 10

/-- Model of `estimateComplexity(markdown, codeBlocks)`. -/
def estimateComplexity (markdown : String) (codeBlocks : List CodeExample) : String :=
  let score := complexityScore markdown codeBlocks
  if score < 10 then "beginner"
  else if score < 25 then "intermediate"
  else "advanced"

/-- Model of `extractCategory(slug)`. -/
def extractCategory (slug : String) : String :=
  let parts := (splitChar '/' slug.data).map (⟨·⟩ : List Char → String)
  if parts.length > 1 then parts.headD "" else "general"

/-- Slug derivation of `parseMarkdownForLLM`:
`relativePath.replace(/\.md$/, '').replace(/\\/g, '/').replace(/^\//, '')`. -/
def slugOf (relativePath : String) : String :=
  let cs := relativePath.data
  let noExt := if prefixB ".md".data.reverse cs.reverse then cs.take (cs.length - 3) else cs
  let slashed := noExt.map (fun c => if c = '\\' then '/' else c)
  ⟨match slashed with
    | '/' :: rest => rest
    | l => l⟩

/-- Document-record title selection
`frontmatter.title || sections[0]?.heading || slug`. -/
def docTitle (frontmatter : Frontmatter) (sections : List Section) (slug : String) : String :=
  jsOr frontmatter.title (jsOr (sections.head?.map Section.heading) slug)

/-- Canonical Document Record assembled by `parseMarkdownForLLM`.  The
filesystem inputs are passed in: `markdown` is the front-matter-stripped
body, `lastModified` the stat timestamp. -/
structure DocRecord where
  slug : String
  path : String
  title : String
  description : String
  summary : String
  keywords : List String
  tags : List String
  category : String
  sections : List Section
  codeExamples : List CodeExample
  tableOfContents : List TocNode
  fullContent : String
  frontmatter : Frontmatter
  lastModified : String
  wordCount : Nat
  estimatedReadingTime : Nat
  contentType : String
  complexity : String
deriving Repr

/-- Model of `parseMarkdownForLLM` on the already-read file contents. -/
def parseMarkdownForLLM (relativePath : String) (frontmatter : Frontmatter)
    (markdown : String) (lastModified : String) : DocRecord :=
  let slug := slugOf relativePath
  let sections := extractSections markdown
  let codeBlocks := extractCodeBlocks markdown
  let summary := generateSummary markdown
  { slug := slug
    path := relativePath
    title := docTitle frontmatter sections slug
    description := jsOr frontmatter.description summary
    summary := summary
    keywords := extractKeywords markdown frontmatter
    tags := frontmatter.tags.getD []
    category := jsOr frontmatter.category (extractCategory slug)
    sections := sections
    codeExamples := codeBlocks
    tableOfContents := buildTableOfContents sections
    fullContent := markdown
    frontmatter := frontmatter
    lastModified := lastModified
    wordCount := countWords markdown
    estimatedReadingTime := (countWords markdown + 199) / 200
    contentType := determineContentType markdown frontmatter
    complexity := estimateComplexity markdown codeBlocks }

/-- Lightweight section projection used in `index.json`. -/
structure SectionRef where
  id : String
  heading : String
  level : Nat
deriving DecidableEq, Repr

/-- Per-document projection in `index.json`. -/
structure IndexDocEntry where
  slug : String
  path : String
  title : String
  summary : String
  category : String
  contentType : String
  complexity : String
  keywords : List String
  tags : List String
  sections : List SectionRef
  codeExampleCount : Nat
  wordCount : Nat
  estimatedReadingTime : Nat
  lastModified : String
deriving DecidableEq, Repr

/-- The `index.json` artifact (`generatedAt`, a wall-clock timestamp, is
not modelled). -/
structure IndexArtifact where
  total : Nat
  totalWords : Nat
  totalCodeExamples : Nat
  categories : List String
  contentTypes : List String
  docs : List IndexDocEntry
deriving DecidableEq, Repr

/-- Per-document entry of `search.json` (per-section `contentPlain` is not
modelled, only the heading of each section pair). -/
structure SearchEntry where
  slug : String
  title : String
  summary : String
  keywords : List String
  category : String
  contentType : String
  sectionHeadings : List String
deriving DecidableEq, Repr

/-- Per-document listing entry of `routes.json`. -/
structure RouteDocEntry where
  slug : String
  route : String
  title : String
  category : String
  contentType : String
  complexity : String
  keywords : List String
  summary : String
  wordCount : Nat
  codeExamples : Nat
  sections : Nat
  estimatedReadingTime : Nat
deriving DecidableEq, Repr

/-- The data content of `routes.json` (the constant descriptive prose and
the wall-clock timestamp are not modelled). -/
structure RoutesArtifact where
  totalDocuments : Nat
  totalWords : Nat
  totalCodeExamples : Nat
  categoriesCount : Nat
  contentTypesCount : Nat
  categories : List (String × Nat × String)
  documents : List RouteDocEntry
  languages : List String
deriving DecidableEq, Repr

/-- JS `Math.round` on an exact rational (round half toward positive
infinity). -/
def jsRound (q : ℚ) : ℤ := ⌊q + 1/2⌋

/-- The `metadata.json` artifact.  `avgWordsPerDoc` and `avgReadingTime`
are `NaN` (serialised as `null`) when the corpus is empty; `none` models
that. -/
structure MetadataArtifact where
  version : String
  totalDocs : Nat
  totalWords : Nat
  totalCodeExamples : Nat
  avgWordsPerDoc : Option ℤ
  avgReadingTime : Option ℤ
  beginnerCount : Nat
  intermediateCount : Nat
  advancedCount : Nat
  languageDistribution : List (String × Nat)
deriving DecidableEq, Repr

/-- Every write performed by one run of the generator. -/
structure ApiOutput where
  index : IndexArtifact
  docFiles : List (String × DocRecord)
  search : List SearchEntry
  categories : List (String × List (String × String × String))
  routes : RoutesArtifact
  metadata : MetadataArtifact
deriving Repr

/-- Order-preserving dedup `[...new Set(xs)]`. -/
def jsSetOf (xs : List String) : List String := xs.foldl setAdd []

/-- Append `v` to the bucket of `k` in an insertion-ordered association
list, creating the bucket on first sight (the `categoryIndex` fold). -/
def bucketAdd (acc : List (String × List (String × String × String)))
    (k : String) (v : String × String × String) :
    List (String × List (String × String × String)) :=
  if acc.any (fun p => p.1 = k) then
    acc.map (fun p => if p.1 = k then (p.1, p.2 ++ [v]) else p)
  else acc ++ [(k, [v])]

/-- Increment the count of `k` in an insertion-ordered association list
(the `languageDistribution` reduce). -/
def countAdd (acc : List (String × Nat)) (k : String) : List (String × Nat) :=
  if acc.any (fun p => p.1 = k) then
    acc.map (fun p => if p.1 = k then (p.1, p.2 + 1) else p)
  else acc ++ [(k, 1)]

/-- Model of `generateLLMOptimizedAPI` after the per-file parsing step:
given the Document Records of all discovered files (an existing directory
with no markdown files yields the empty list), produce every artifact.
Filesystem writes are modelled by returning the artifact contents; no
artifact reads another. -/
def generateLLMOptimizedAPI (docs : List DocRecord) : ApiOutput :=
  let totalWords := (docs.map DocRecord.wordCount).sum
  let totalCodeExamples := (docs.map (fun d => d.codeExamples.length)).sum
  let categories := jsSetOf (docs.map DocRecord.category)
  let contentTypes := jsSetOf (docs.map DocRecord.contentType)
  let index : IndexArtifact :=
    { total := docs.length
      totalWords := totalWords
      totalCodeExamples := totalCodeExamples
      categories := categories
      contentTypes := contentTypes
      docs := docs.map (fun doc =>
        { slug := doc.slug, path := doc.path, title := doc.title
          summary := doc.summary, category := doc.category
          contentType := doc.contentType, complexity := doc.complexity
          keywords := doc.keywords, tags := doc.tags
          sections := doc.sections.map (fun s => ⟨s.id, s.heading, s.level⟩)
          codeExampleCount := doc.codeExamples.length
          wordCount := doc.wordCount
          estimatedReadingTime := doc.estimatedReadingTime
          lastModified := doc.lastModified }) }
  let languages := jsSetOf (docs.flatMap (fun d => d.codeExamples.map CodeExample.language))
  { index := index
    docFiles := docs.map (fun doc => (doc.slug ++ ".json", doc))
    search := docs.map (fun doc =>
      { slug := doc.slug, title := doc.title, summary := doc.summary
        keywords := doc.keywords, category := doc.category
        contentType := doc.contentType
        sectionHeadings := doc.sections.map Section.heading })
    categories := docs.foldl (fun acc doc =>
      bucketAdd acc doc.category (doc.slug, doc.title, doc.summary)) []
    routes :=
      { totalDocuments := docs.length
        totalWords := totalWords
        totalCodeExamples := totalCodeExamples
        categoriesCount := categories.length
        contentTypesCount := contentTypes.length
        categories := categories.map (fun cat =>
          (cat, (docs.filter (fun d => d.category = cat)).length,
           "/api/category-" ++ cat ++ ".json"))
        documents := docs.map (fun doc =>
          { slug := doc.slug
            route := "/api/" ++ doc.slug ++ ".json"
            title := doc.title, category := doc.category
            contentType := doc.contentType, complexity := doc.complexity
            keywords := doc.keywords.take 8
            summary := (⟨doc.summary.data.take 120⟩ : String) ++ "..."
            wordCount := doc.wordCount
            codeExamples := doc.codeExamples.length
            sections := doc.sections.length
            estimatedReadingTime := doc.estimatedReadingTime })
        languages := languages }
    metadata :=
      { version := "1.0.0"
        totalDocs := docs.length
        totalWords := totalWords
        totalCodeExamples := totalCodeExamples
        avgWordsPerDoc :=
          if docs.length = 0 then none
          else some (jsRound ((totalWords : ℚ) / (docs.length : ℚ)))
        avgReadingTime :=
          if docs.length = 0 then none
          else some (jsRound (((docs.map DocRecord.estimatedReadingTime).sum : ℚ) / (docs.length : ℚ)))
        beginnerCount := (docs.filter (fun d => d.complexity = "beginner")).length
        intermediateCount := (docs.filter (fun d => d.complexity = "intermediate")).length
        advancedCount := (docs.filter (fun d => d.complexity = "advanced")).length
        languageDistribution :=
          (docs.flatMap (fun d => d.codeExamples.map CodeExample.language)).foldl countAdd [] } }

/-! Concrete documents used to instantiate and refute claims. -/

/-- Document whose only fenced code block lies before the first heading. -/
def docCodeBeforeHeading : String := "```js\nx\n```"

/-- Document with one closed fenced block inside a section, followed by
prose. -/
def docClosedFence : String := "# H\n```js\ncode\n```\ntext"

/-- Three-heading document of the TOC re-parenting scenario. -/
def docTocScenario : String := "# A\n### B\n## C"

/-- Document whose keyword sources collide only up to letter case. -/
def docCaseCollide : String := "# Heading MyChunk\nuse myChunk here"

/-- Document with 250 words outside fences, three fenced blocks and no
camelCase token. -/
def docComplexity : String :=
  jsJoinLines (List.replicate 250 "w") ++ "\n```\nc\n```\n```\nc\n```\n```\nc\n```"

/-- Document without any heading line. -/
def docNoHeadings : String := "just text\nno headings here"

/-- Document with a heading-patterned line inside a fenced code block. -/
def docHeadingInFence : String := "# H\n```sh\n# install it\n```"

/-- Well-fenced two-section document with leading prose, used to
instantiate the amended flat/section code-block correspondence. -/
def docTwoSections : String := "intro\n# A\ntext\n```js\ncode\n```\ndone\n# B\nmore"

end StunkDocs

namespace StunkDocs

set_option maxRecDepth 100000

/-! Basic facts about the string primitives. -/

theorem prefixB_iff (p l : List Char) : prefixB p l = true ↔ p <+: l := by
  induction p generalizing l with
  | nil => simp [prefixB]
  | cons a as ih =>
    cases l with
    | nil => simp [prefixB]
    | cons b bs =>
      simp only [prefixB, Bool.and_eq_true, decide_eq_true_eq, ih, List.cons_prefix_cons]

theorem containsB_iff (l n : List Char) : containsB l n = true ↔ n <:+: l := by
  induction l with
  | nil =>
    simp only [containsB, List.isEmpty_iff, List.infix_nil]
  | cons h t ih =>
    simp only [containsB, Bool.or_eq_true, prefixB_iff, ih, List.infix_cons_iff]

theorem strIncludes_iff (hay needle : String) :
    strIncludes hay needle = true ↔ needle.data <:+: hay.data := by
  simp [strIncludes, containsB_iff]

/-- Claim C3: feeding the sections of the heading sequence `# A`, `### B`,
`## C` to the TOC builder yields a single root node A whose children are B
(level 3) and C (level 2): C is re-parented under A, not under B, because
the builder pops the ancestor stack while the top's level is ≥ the new
section's level before attaching. -/
theorem toc_reparents_level_skips :
    buildTableOfContents (extractSections docTocScenario) =
      [.mk "a" "A" 1 [.mk "b" "B" 3 [], .mk "c" "C" 2 []]] := by
  rfl

/-- Claim C2 (failing-input evaluation): in the document
`# H / fenced js block / text`, exactly one fenced code block opens inside
section H, yet the section's `codeBlocks` records two entries — the
closing fence line also triggers `extractCodeBlockFromLine`, adding a
spurious `plaintext` block holding the prose after the fence.  The flat
extractor of the same document records a single block. -/
theorem closing_fence_adds_spurious_entry :
    (extractSections docClosedFence).map Section.codeBlocks =
      [[⟨"js", "code", 1⟩, ⟨"plaintext", "text", 1⟩]] ∧
    extractCodeBlocks docClosedFence = [⟨"js", "code", 1, "implementation"⟩] := by
  constructor <;> rfl

/-- Claim C4: code-purpose classification is first-match-wins with the
test idiom checked first, so any code body containing both
`interface Foo` and `expect(x).toBe(y)` classifies as `test` (and hence
not as `type-definition`). -/
theorem purpose_test_beats_type_definition (code language : String)
    (_hi : strIncludes code "interface Foo" = true)
    (he : strIncludes code "expect(x).toBe(y)" = true) :
    detectCodePurpose code language = "test" := by
  have hinf : ("expect(x).toBe(y)" : String).data <:+: code.data :=
    (strIncludes_iff _ _).mp he
  have hmap : (("expect(x).toBe(y)" : String).data.map lowerChar) <:+:
      (code.data.map lowerChar) := List.IsInfix.map lowerChar hinf
  have hpre : ("expect" : String).data <+: (("expect(x).toBe(y)" : String).data.map lowerChar) := by
    decide
  have hexp : strIncludes (strLower code) "expect" = true := by
    rw [strIncludes_iff]
    exact List.IsInfix.trans (hpre.isInfix) hmap
  simp only [detectCodePurpose, hexp, Bool.or_true, if_true]

/-- Claim C4 witness: a concrete block containing both idioms. -/
theorem purpose_test_beats_type_definition_example :
    strIncludes "interface Foo\nexpect(x).toBe(y)" "interface Foo" = true ∧
    detectCodePurpose "interface Foo\nexpect(x).toBe(y)" "ts" = "test" :=
  ⟨by decide, purpose_test_beats_type_definition _ "ts" (by decide) (by decide)⟩

/-- Claim C9: the generator run on an empty document list (what scanning
an existing directory with zero markdown files produces) terminates,
writes an index artifact with `total = 0` and writes no per-document
files; the only degradation is the `NaN` (serialised `null`) average
fields of the metadata artifact. -/
theorem generator_on_empty_corpus :
    (generateLLMOptimizedAPI []).index.total = 0 ∧
    (generateLLMOptimizedAPI []).docFiles = [] ∧
    (generateLLMOptimizedAPI []).metadata.avgWordsPerDoc = none := by
  exact ⟨rfl, rfl, rfl⟩

/-- Claim C7: the complexity tiers cut the score at 10 and 25, and the
document with three fenced blocks, 250 words outside fences and no
camelCase token scores exactly `2*3 + 0 + 250/200 = 29/4 = 7.25`, landing
in the `beginner` tier. -/
theorem complexity_score_and_tiers :
    (∀ md bs,
      (complexityScore md bs < 10 → estimateComplexity md bs = "beginner") ∧
      (10 ≤ complexityScore md bs → complexityScore md bs < 25 →
        estimateComplexity md bs = "intermediate") ∧
      (25 ≤ complexityScore md bs → estimateComplexity md bs = "advanced")) ∧
    complexityScore docComplexity (extractCodeBlocks docComplexity) = 29 / 4 ∧
    estimateComplexity docComplexity (extractCodeBlocks docComplexity) = "beginner" := by
  have hscore : complexityScore docComplexity (extractCodeBlocks docComplexity) = 29 / 4 := by
    have h1 : (extractCodeBlocks docComplexity).length = 3 := by decide
    have h2 : (technicalTerms docComplexity).length = 0 := by decide
    have h3 : countWords docComplexity = 250 := by decide
    unfold complexityScore
    rw [h1, h2, h3]
    norm_num
  refine ⟨fun md bs => ⟨?_, ?_, ?_⟩, hscore, ?_⟩
  · intro h
    simp [estimateComplexity, h]
  · intro h10 h25
    simp [estimateComplexity, not_lt.2 h10, h25]
  · intro h25
    have h10 : ¬ complexityScore md bs < 10 := not_lt.2 (le_trans (by norm_num) h25)
    have h25' : ¬ complexityScore md bs < 25 := not_lt.2 h25
    simp [estimateComplexity, h10, h25']
  · simp only [estimateComplexity, hscore]
    norm_num

/-- Claim C7 witness: the scenario score is below the first threshold and
the theorem's first tier implication applies to it. -/
theorem complexity_score_and_tiers_witness :
    complexityScore docComplexity (extractCodeBlocks docComplexity) < 10 ∧
    estimateComplexity docComplexity (extractCodeBlocks docComplexity) = "beginner" := by
  have h : complexityScore docComplexity (extractCodeBlocks docComplexity) < 10 := by
    rw [complexity_score_and_tiers.2.1]
    norm_num
  exact ⟨h, (complexity_score_and_tiers.1 _ _).1 h⟩

/-- Claim C8 (counterexample): a front-matter title that is present but
empty is falsy in JS, so `frontmatter.title || ...` skips it — the claim's
"front-matter title when present" fails for the empty string: the empty
title is present, yet the produced title is the slug. -/
theorem title_present_but_empty_falls_through :
    (parseMarkdownForLLM "doc.md" { title := some "" } docNoHeadings "2024").title = "doc" ∧
    (parseMarkdownForLLM "doc.md" { title := some "" } docNoHeadings "2024").title ≠ "" := by
  exact ⟨rfl, by decide⟩

/-- Claim C8 (amended): the title is the front-matter title when present
and non-empty, else the first section's heading when a section exists with
a non-empty heading, else the slug; the scenario document with front-matter
title Foo and no headings yields title Foo, no sections and an empty table
of contents. -/
theorem title_selection :
    (∀ rp fm md lm t, fm.title = some t → t ≠ "" →
      (parseMarkdownForLLM rp fm md lm).title = t) ∧
    (∀ rp fm md lm, (fm.title = none ∨ fm.title = some "") → extractSections md = [] →
      (parseMarkdownForLLM rp fm md lm).title = slugOf rp) ∧
    (∀ rp fm md lm s ss, (fm.title = none ∨ fm.title = some "") →
      extractSections md = s :: ss → s.heading ≠ "" →
      (parseMarkdownForLLM rp fm md lm).title = s.heading) ∧
    (parseMarkdownForLLM "doc.md" { title := some "Foo" } docNoHeadings "2024").title = "Foo" ∧
    (parseMarkdownForLLM "doc.md" { title := some "Foo" } docNoHeadings "2024").sections = [] ∧
    (parseMarkdownForLLM "doc.md" { title := some "Foo" } docNoHeadings "2024").tableOfContents = [] := by
  refine ⟨?_, ?_, ?_, rfl, rfl, rfl⟩
  · intro rp fm md lm t ht hne
    simp [parseMarkdownForLLM, docTitle, jsOr, truthy, ht, hne]
  · intro rp fm md lm ht hs
    rcases ht with h | h <;>
      simp [parseMarkdownForLLM, docTitle, jsOr, truthy, h, hs]
  · intro rp fm md lm s ss ht hs hne
    rcases ht with h | h <;>
      simp [parseMarkdownForLLM, docTitle, jsOr, truthy, h, hs, hne]

/-- Claim C8 witness: the amended title rule applied to the concrete
scenario document. -/
theorem title_selection_witness :
    (parseMarkdownForLLM "doc.md" { title := some "Foo" } docNoHeadings "2024").title = "Foo" :=
  title_selection.1 "doc.md" { title := some "Foo" } docNoHeadings "2024" "Foo" rfl (by decide)

/-- Claim C6 (counterexample): keyword deduplication is not
case-insensitive: the heading word `MyChunk` is lower-cased to `mychunk`
before insertion but the camelCase body token `myChunk` is inserted
verbatim, so the keyword list holds two entries that differ only in
case. -/
theorem keywords_case_collision :
    "mychunk" ∈ extractKeywords docCaseCollide {} ∧
    "myChunk" ∈ extractKeywords docCaseCollide {} ∧
    strLower "myChunk" = strLower "mychunk" ∧
    ("myChunk" : String) ≠ "mychunk" := by
  exact ⟨by decide, by decide, by decide, by decide⟩

theorem foldl_setAdd_nodup (l : List String) (acc : List String) (h : acc.Nodup) :
    (l.foldl setAdd acc).Nodup := by
  induction l generalizing acc with
  | nil => simpa using h
  | cons x xs ih =>
    simp only [List.foldl_cons]
    apply ih
    unfold setAdd
    split
    · exact h
    · next hmem => simp [List.nodup_append, h, hmem]

theorem foldl_setAdd_sublist (l : List String) (acc : List String) :
    (l.foldl setAdd acc).Sublist (acc ++ l) := by
  induction l generalizing acc with
  | nil => simp
  | cons x xs ih =>
    simp only [List.foldl_cons]
    refine (ih (setAdd acc x)).trans ?_
    unfold setAdd
    split
    · exact (List.append_sublist_append_left acc).mpr (List.sublist_cons_self x xs)
    · simp

/-- Claim C6 (amended): the keyword collection deduplicates by exact
string equality (tags and heading words are lower-cased before insertion,
camelCase tokens and declaration identifiers are inserted verbatim), keeps
first-found-wins order — the result is a sublist of the ordered insertion
stream — and is capped at 20 entries. -/
theorem keywords_nodup_ordered_capped (md : String) (fm : Frontmatter) :
    (extractKeywords md fm).Nodup ∧
    (extractKeywords md fm).length ≤ 20 ∧
    (extractKeywords md fm).Sublist (keywordStream md fm) := by
  unfold extractKeywords
  refine ⟨?_, ?_, ?_⟩
  · exact (foldl_setAdd_nodup _ _ (by simp)).sublist (List.take_sublist _ _)
  · exact List.length_take_le 20 _
  · exact (List.take_sublist _ _).trans (by simpa using foldl_setAdd_sublist (keywordStream md fm) [])

/-! Structural facts about the section extractor. -/

theorem closeSection_fields (s : Section) (buf : List String) :
    (closeSection s buf).level = s.level ∧ (closeSection s buf).heading = s.heading ∧
    (closeSection s buf).lineNumber = s.lineNumber :=
  ⟨rfl, rfl, rfl⟩

theorem scanLine_fields (s : Section) (l : String) (r : List String) :
    (scanLine s l r).level = s.level ∧ (scanLine s l r).heading = s.heading ∧
    (scanLine s l r).lineNumber = s.lineNumber := by
  unfold scanLine
  repeat' split
  all_goals simp

theorem sectionsLoop_nil_none (i : Nat) : sectionsLoop [] i none = [] := rfl

theorem sectionsLoop_nil_some (i : Nat) (s : Section) (buf : List String) :
    sectionsLoop [] i (some (s, buf)) = [closeSection s buf] := rfl

theorem sectionsLoop_cons (line : String) (rs : List String) (i : Nat)
    (acc : Option (Section × List String)) :
    sectionsLoop (line :: rs) i acc =
      match headingMatch line with
      | some (lvl, hd) =>
        (match acc with
         | none => []
         | some (s, buf) => [closeSection s buf]) ++
        sectionsLoop rs (i + 1) (some (mkSection lvl hd i, []))
      | none =>
        match acc with
        | none => sectionsLoop rs (i + 1) none
        | some (s, buf) => sectionsLoop rs (i + 1) (some (scanLine s line rs, buf ++ [line])) := rfl

theorem headingMatch_spec {l : String} {lvl : Nat} {hd : String}
    (hm : headingMatch l = some (lvl, hd)) :
    lvl = hashCount l ∧ 1 ≤ lvl ∧ lvl ≤ 6 := by
  simp only [headingMatch] at hm
  split at hm
  · next hk =>
    split at hm
    · exact absurd hm (by simp)
    · split at hm
      · split at hm
        · obtain ⟨h1, h2⟩ := Prod.mk.injEq .. ▸ Option.some.injEq .. ▸ hm
          exact ⟨h1.symm ▸ rfl, h1 ▸ hk.1, h1 ▸ hk.2⟩
        · exact absurd hm (by simp)
      · obtain ⟨h1, h2⟩ := Prod.mk.injEq .. ▸ Option.some.injEq .. ▸ hm
        exact ⟨h1.symm ▸ rfl, h1 ▸ hk.1, h1 ▸ hk.2⟩
  · exact absurd hm (by simp)

theorem sectionsLoop_origin (rest : List String) (i : Nat)
    (acc : Option (Section × List String)) :
    ∀ S ∈ sectionsLoop rest i acc,
      (∃ p, acc = some p ∧ S.level = p.1.level ∧ S.heading = p.1.heading ∧
        S.lineNumber = p.1.lineNumber) ∨
      (∃ j l, rest[j]? = some l ∧ S.lineNumber = i + j + 1 ∧
        headingMatch l = some (S.level, S.heading)) := by
  induction rest generalizing i acc with
  | nil =>
    intro S hS
    cases acc with
    | none => simp [sectionsLoop] at hS
    | some p =>
      left
      obtain ⟨s, buf⟩ := p
      simp only [sectionsLoop, List.mem_singleton] at hS
      subst hS
      exact ⟨(s, buf), rfl, rfl, rfl, rfl⟩
  | cons line rs ih =>
    intro S hS
    rcases hm : headingMatch line with _ | ⟨lvl, hd⟩
    · simp only [sectionsLoop_cons, hm] at hS
      cases acc with
      | none =>
        rcases ih (i + 1) none S hS with ⟨p, hp, _⟩ | ⟨j, l, hget, hnum, hhem⟩
        · exact absurd hp (by simp)
        · exact Or.inr ⟨j + 1, l, by simpa using hget, by omega, hhem⟩
      | some p =>
        obtain ⟨s, buf⟩ := p
        rcases ih (i + 1) _ S hS with ⟨q, hq, h1, h2, h3⟩ | ⟨j, l, hget, hnum, hhem⟩
        · obtain ⟨h1', h2', h3'⟩ := scanLine_fields s line rs
          cases hq
          exact Or.inl ⟨(s, buf), rfl, h1.trans h1', h2.trans h2', h3.trans h3'⟩
        · exact Or.inr ⟨j + 1, l, by simpa using hget, by omega, hhem⟩
    · simp only [sectionsLoop_cons, hm] at hS
      rcases List.mem_append.mp hS with hcl | hrec
      · cases acc with
        | none => simp at hcl
        | some p =>
          obtain ⟨s, buf⟩ := p
          simp only [List.mem_singleton] at hcl
          subst hcl
          exact Or.inl ⟨(s, buf), rfl, rfl, rfl, rfl⟩
      · rcases ih (i + 1) _ S hrec with ⟨q, hq, h1, h2, h3⟩ | ⟨j, l, hget, hnum, hhem⟩
        · cases hq
          refine Or.inr ⟨0, line, by simp, by simpa [mkSection] using h3, ?_⟩
          rw [hm]
          simp only [mkSection] at h1 h2
          rw [h1, h2]
        · exact Or.inr ⟨j + 1, l, by simpa using hget, by omega, hhem⟩

/-- Claim C5: every section originates from a heading line of the document
(found at index `lineNumber - 1`), its level is the exact count of leading
hash characters of that line, and that level lies between 1 and 6 — in
particular no line with seven or more leading hashes ever produces a
section. -/
theorem section_level_is_hash_count (md : String) (S : Section)
    (hS : S ∈ extractSections md) :
    ∃ l, (jsSplitLines md)[S.lineNumber - 1]? = some l ∧
      S.level = hashCount l ∧ 1 ≤ S.level ∧ S.level ≤ 6 := by
  have horig := sectionsLoop_origin (jsSplitLines md) 0 none S hS
  rcases horig with ⟨p, hp, _⟩ | ⟨j, l, hget, hnum, hm⟩
  · exact absurd hp (by simp)
  · obtain ⟨h1, h2, h3⟩ := headingMatch_spec hm
    refine ⟨l, ?_, h1, h2, h3⟩
    have : S.lineNumber - 1 = j := by omega
    rw [this]
    exact hget

/-- Claim C5 witness: the single section of a concrete two-line document. -/
theorem section_level_is_hash_count_witness :
    ∃ l, (jsSplitLines "## Hi\nbody")[(1 : Nat) - 1]? = some l ∧
      (2 : Nat) = hashCount l ∧ 1 ≤ (2 : Nat) ∧ (2 : Nat) ≤ 6 :=
  section_level_is_hash_count "## Hi\nbody"
    ⟨"hi", 2, "Hi", "body", 1, [], [], []⟩ (by decide)

/-! Facts about line splitting and joining. -/

theorem splitChar_not_mem {sep : Char} {cs : List Char} (h : sep ∉ cs) :
    splitChar sep cs = [cs] := by
  induction cs with
  | nil => rfl
  | cons c t ih =>
    have hc : ¬ c = sep := fun e => h (e ▸ List.mem_cons_self c t)
    have ht : sep ∉ t := fun m => h (List.mem_cons_of_mem c m)
    simp only [splitChar, if_neg hc, ih ht]

theorem splitChar_sep_free {sep : Char} (cs : List Char) :
    ∀ l ∈ splitChar sep cs, sep ∉ l := by
  induction cs with
  | nil =>
    intro l hl
    simp only [splitChar, List.mem_singleton] at hl
    simp [hl]
  | cons c t ih =>
    intro l hl
    by_cases hc : c = sep
    · simp only [splitChar, if_pos hc] at hl
      rcases List.mem_cons.mp hl with h | h
      · simp [h]
      · exact ih l h
    · simp only [splitChar, if_neg hc] at hl
      rcases e : splitChar sep t with _ | ⟨h0, t0⟩
      · rw [e] at hl
        simp only [List.mem_singleton] at hl
        intro hmem
        rw [hl] at hmem
        rcases List.mem_cons.mp hmem with h | h
        · exact hc h.symm
        · exact absurd h (by simp)
      · rw [e] at hl
        rcases List.mem_cons.mp hl with h | h
        · intro hmem
          rw [h] at hmem
          rcases List.mem_cons.mp hmem with h2 | h2
          · exact hc h2.symm
          · exact ih h0 (e ▸ List.mem_cons_self h0 t0) h2
        · exact ih l (e ▸ List.mem_cons_of_mem h0 h)

theorem splitChar_ne_nil {sep : Char} (cs : List Char) : splitChar sep cs ≠ [] := by
  induction cs with
  | nil => simp [splitChar]
  | cons c t ih =>
    by_cases hc : c = sep
    · simp [splitChar, if_pos hc]
    · simp only [splitChar, if_neg hc]
      rcases e : splitChar sep t with _ | ⟨h0, t0⟩
      · simp
      · simp

theorem splitChar_append {sep : Char} {a b : List Char} (h : sep ∉ a) :
    splitChar sep (a ++ sep :: b) = a :: splitChar sep b := by
  induction a with
  | nil => simp [splitChar]
  | cons c t ih =>
    have hc : ¬ c = sep := fun e => h (e ▸ List.mem_cons_self c t)
    have ht : sep ∉ t := fun m => h (List.mem_cons_of_mem c m)
    simp only [List.cons_append, splitChar, List.append_eq, if_neg hc]
    rw [ih ht]

theorem splitNl_join (css : List (List Char)) (hne : css ≠ [])
    (hnl : ∀ x ∈ css, '\n' ∉ x) : splitNl (joinNl css) = css := by
  induction css with
  | nil => exact absurd rfl hne
  | cons x t ih =>
    cases t with
    | nil =>
      simp only [joinNl, splitNl]
      exact splitChar_not_mem (hnl x (List.mem_singleton_self x))
    | cons y u =>
      have hx : '\n' ∉ x := hnl x (List.mem_cons_self x _)
      simp only [joinNl, splitNl] at *
      rw [splitChar_append hx]
      rw [ih (by simp) (fun z hz => hnl z (List.mem_cons_of_mem x hz))]

theorem jsSplitLines_noNl (s : String) : ∀ l ∈ jsSplitLines s, '\n' ∉ l.data := by
  intro l hl
  simp only [jsSplitLines, List.mem_map] at hl
  obtain ⟨cs, hcs, rfl⟩ := hl
  exact splitChar_sep_free s.data cs hcs

theorem jsSplit_join (ls : List String) (hne : ls ≠ [])
    (hnl : ∀ l ∈ ls, '\n' ∉ l.data) : jsSplitLines (jsJoinLines ls) = ls := by
  have hdata : (jsJoinLines ls).data = joinNl (ls.map String.data) := rfl
  simp only [jsSplitLines, hdata]
  rw [splitNl_join (ls.map String.data) (by simpa using hne)
    (by intro x hx; simp only [List.mem_map] at hx; obtain ⟨l, hl, rfl⟩ := hx; exact hnl l hl)]
  clear hne hnl hdata
  induction ls with
  | nil => rfl
  | cons a t ih => simp only [List.map_cons, List.map_map] at *; rw [ih]

/-! Facts about the flat code-block extractor. -/

theorem cbLoop_cons_outside (l : String) (rest : List String) :
    cbLoop (l :: rest) .outside =
      if isFence l then cbLoop rest (.inside (fenceLanguage l) [])
      else cbLoop rest .outside := rfl

theorem cbLoop_cons_inside (l : String) (rest : List String) (lang : String) (acc : List String) :
    cbLoop (l :: rest) (.inside lang acc) =
      if isFence l then mkExample lang acc :: cbLoop rest .outside
      else cbLoop rest (.inside lang (acc ++ [l])) := rfl

theorem cbLoop_inside_head (lines : List String) (lang : String) (acc : List String) :
    ∃ t bs, (∀ y ∈ t, y ∈ lines) ∧
      cbLoop lines (.inside lang acc) = mkExample lang (acc ++ t) :: bs := by
  induction lines generalizing acc with
  | nil => exact ⟨[], [], by simp, by simp [cbLoop]⟩
  | cons l rest ih =>
    by_cases hf : isFence l
    · exact ⟨[], cbLoop rest .outside, by simp, by simp [cbLoop_cons_inside, hf]⟩
    · obtain ⟨t, bs, hsub, heq⟩ := ih (acc ++ [l])
      refine ⟨l :: t, bs, ?_, ?_⟩
      · intro y hy
        rcases List.mem_cons.mp hy with h | h
        · exact h ▸ List.mem_cons_self l rest
        · exact List.mem_cons_of_mem l (hsub y h)
      · rw [cbLoop_cons_inside, if_neg hf, heq]
        simp

theorem inBody_block_membership (lines : List String) (st : CbState) (j : Nat) (l : String)
    (hj : lines[j]? = some l) (hb : inBodyAux lines st j = true)
    (hnl : ∀ x ∈ lines, '\n' ∉ x.data)
    (hst : ∀ lang acc, st = CbState.inside lang acc → ∀ x ∈ acc, '\n' ∉ x.data) :
    ∃ b ∈ cbLoop lines st, l ∈ jsSplitLines b.code := by
  induction lines generalizing st j with
  | nil => simp at hj
  | cons x rest ih =>
    cases j with
    | zero =>
      simp only [List.getElem?_cons_zero, Option.some.injEq] at hj
      subst hj
      cases st with
      | outside => simp [inBodyAux] at hb
      | inside lang acc =>
        simp only [inBodyAux] at hb
        have hf : ¬ isFence x := by simpa using hb
        obtain ⟨t, bs, hsub, heq⟩ := cbLoop_inside_head rest lang (acc ++ [x])
        rw [cbLoop_cons_inside, if_neg hf, heq]
        refine ⟨mkExample lang (acc ++ [x] ++ t), List.mem_cons_self _ _, ?_⟩
        have hfree : ∀ y ∈ acc ++ [x] ++ t, '\n' ∉ y.data := by
          intro y hy
          rcases List.mem_append.mp hy with h | h
          · rcases List.mem_append.mp h with h2 | h2
            · exact hst lang acc rfl y h2
            · simp only [List.mem_singleton] at h2
              exact h2 ▸ hnl x (List.mem_cons_self x rest)
          · exact hnl y (List.mem_cons_of_mem x (hsub y h))
        have : jsSplitLines (mkExample lang (acc ++ [x] ++ t)).code = acc ++ [x] ++ t := by
          show jsSplitLines (jsJoinLines (acc ++ [x] ++ t)) = acc ++ [x] ++ t
          exact jsSplit_join _ (by simp) hfree
        rw [this]
        simp
    | succ j =>
      simp only [List.getElem?_cons_succ] at hj
      simp only [inBodyAux] at hb
      cases st with
      | outside =>
        have hnext := ih (cbNext .outside x) j hj hb
          (fun y hy => hnl y (List.mem_cons_of_mem x hy))
          (by
            intro lang acc he x' hx'
            simp only [cbNext] at he
            split at he
            · cases he
              simp at hx'
            · cases he)
        rcases hnext with ⟨b, hbmem, hbl⟩
        refine ⟨b, ?_, hbl⟩
        rw [cbLoop_cons_outside]
        simp only [cbNext] at hbmem
        split at hbmem <;> simp_all
      | inside lang acc =>
        by_cases hf : isFence x
        · have hnext := ih .outside j hj (by simpa [cbNext, hf] using hb)
            (fun y hy => hnl y (List.mem_cons_of_mem x hy))
            (by intro lang' acc' he; cases he)
          rcases hnext with ⟨b, hbmem, hbl⟩
          exact ⟨b, by rw [cbLoop_cons_inside, if_pos hf]; exact List.mem_cons_of_mem _ hbmem, hbl⟩
        · have hnext := ih (.inside lang (acc ++ [x])) j hj (by simpa [cbNext, hf] using hb)
            (fun y hy => hnl y (List.mem_cons_of_mem x hy))
            (by
              intro lang' acc' he y hy
              cases he
              rcases List.mem_append.mp hy with h | h
              · exact hst lang acc rfl y h
              · simp only [List.mem_singleton] at h
                exact h ▸ hnl x (List.mem_cons_self x rest))
          rcases hnext with ⟨b, hbmem, hbl⟩
          exact ⟨b, by rw [cbLoop_cons_inside, if_neg hf]; exact hbmem, hbl⟩

/-! Completeness of the section extractor: every heading line opens a
section that is eventually emitted. -/

theorem sectionsLoop_acc_emitted (rest : List String) (i : Nat) (s : Section)
    (buf : List String) :
    ∃ S ∈ sectionsLoop rest i (some (s, buf)),
      S.level = s.level ∧ S.heading = s.heading ∧ S.lineNumber = s.lineNumber := by
  induction rest generalizing i s buf with
  | nil =>
    exact ⟨closeSection s buf, by simp [sectionsLoop_nil_some], rfl, rfl, rfl⟩
  | cons line rs ih =>
    rcases hm : headingMatch line with _ | ⟨lvl, hd⟩
    · obtain ⟨S, hmem, h1, h2, h3⟩ := ih (i + 1) (scanLine s line rs) (buf ++ [line])
      obtain ⟨p1, p2, p3⟩ := scanLine_fields s line rs
      refine ⟨S, ?_, h1.trans p1, h2.trans p2, h3.trans p3⟩
      simp only [sectionsLoop_cons, hm]
      exact hmem
    · refine ⟨closeSection s buf, ?_, rfl, rfl, rfl⟩
      simp only [sectionsLoop_cons, hm]
      exact List.mem_append_left _ (List.mem_singleton_self _)

theorem sectionsLoop_complete (rest : List String) (i : Nat)
    (acc : Option (Section × List String)) (j : Nat) (l : String) (lvl : Nat) (hd : String)
    (hj : rest[j]? = some l) (hm : headingMatch l = some (lvl, hd)) :
    ∃ S ∈ sectionsLoop rest i acc, S.lineNumber = i + j + 1 ∧ S.level = lvl ∧ S.heading = hd := by
  induction rest generalizing i acc j with
  | nil => simp at hj
  | cons x rs ih =>
    cases j with
    | zero =>
      simp only [List.getElem?_cons_zero, Option.some.injEq] at hj
      subst hj
      obtain ⟨S, hmem, h1, h2, h3⟩ :=
        sectionsLoop_acc_emitted rs (i + 1) (mkSection lvl hd i) []
      refine ⟨S, ?_, ?_, ?_, ?_⟩
      · simp only [sectionsLoop_cons, hm]
        exact List.mem_append_right _ hmem
      · simpa [mkSection] using h3
      · simpa [mkSection] using h1
      · simpa [mkSection] using h2
    | succ j =>
      simp only [List.getElem?_cons_succ] at hj
      rcases hmx : headingMatch x with _ | ⟨lvl', hd'⟩
      · cases acc with
        | none =>
          obtain ⟨S, hmem, h1, h2, h3⟩ := ih (i + 1) none j hj
          exact ⟨S, by simp only [sectionsLoop_cons, hmx]; exact hmem, by omega, h2, h3⟩
        | some p =>
          obtain ⟨s, buf⟩ := p
          obtain ⟨S, hmem, h1, h2, h3⟩ :=
            ih (i + 1) (some (scanLine s x rs, buf ++ [x])) j hj
          exact ⟨S, by simp only [sectionsLoop_cons, hmx]; exact hmem, by omega, h2, h3⟩
      · obtain ⟨S, hmem, h1, h2, h3⟩ :=
          ih (i + 1) (some (mkSection lvl' hd' i, [])) j hj
        refine ⟨S, ?_, by omega, h2, h3⟩
        simp only [sectionsLoop_cons, hmx]
        exact List.mem_append_right _ hmem

/-- Claim C10: the section scanner keeps no fence state, so a line that
matches the heading pattern while lying inside a fenced code block of the
flat scan still opens a new section at exactly that line — even though the
flat extractor records the very same line as part of a code block's body. -/
theorem heading_inside_fence_still_sections (md : String) (j : Nat) (l : String)
    (lvl : Nat) (hd : String)
    (hj : (jsSplitLines md)[j]? = some l)
    (hm : headingMatch l = some (lvl, hd))
    (hb : inCodeBody (jsSplitLines md) j = true) :
    (∃ S ∈ extractSections md, S.lineNumber = j + 1 ∧ S.level = lvl ∧ S.heading = hd) ∧
    (∃ b ∈ extractCodeBlocks md, l ∈ jsSplitLines b.code) := by
  constructor
  · obtain ⟨S, hmem, h1, h2, h3⟩ :=
      sectionsLoop_complete (jsSplitLines md) 0 none j l lvl hd hj hm
    exact ⟨S, hmem, by omega, h2, h3⟩
  · exact inBody_block_membership (jsSplitLines md) .outside j l hj hb
      (jsSplitLines_noNl md) (by intro lang acc h; cases h)

/-- Claim C10 witness: in `# H` followed by a shell block whose body is
`# install it`, that body line opens a second section at line 3 while the
flat extractor keeps it inside the single code block. -/
theorem heading_inside_fence_still_sections_witness :
    (∃ S ∈ extractSections docHeadingInFence,
      S.lineNumber = 2 + 1 ∧ S.level = 1 ∧ S.heading = "install it") ∧
    (∃ b ∈ extractCodeBlocks docHeadingInFence, "# install it" ∈ jsSplitLines b.code) :=
  heading_inside_fence_still_sections docHeadingInFence 2 "# install it" 1 "install it"
    (by decide) (by decide) (by decide)

/-! Whitespace-trimming facts at the character level, feeding the
description of `String.trim` on joined line buffers. -/

theorem rdropWs_eq_nil_iff (l : List Char) : rdropWs l = [] ↔ ∀ c ∈ l, isWs c = true := by
  simp [rdropWs, List.dropWhile_eq_nil_iff]

theorem rdropWs_prefixOf (l : List Char) : rdropWs l <+: l := by
  have h := List.reverse_prefix.mpr (List.dropWhile_suffix (p := isWs) (l := l.reverse))
  simpa [rdropWs] using h

theorem rdropWs_append (a b : List Char) :
    rdropWs (a ++ b) = if rdropWs b = [] then rdropWs a else a ++ rdropWs b := by
  unfold rdropWs
  rw [List.reverse_append, List.dropWhile_append]
  by_cases h : (b.reverse.dropWhile isWs).isEmpty
  · rw [if_pos h]
    have : b.reverse.dropWhile isWs = [] := List.isEmpty_iff.mp h
    rw [if_pos (by simp [this])]
  · rw [if_neg h]
    have : ¬ b.reverse.dropWhile isWs = [] := fun e => h (List.isEmpty_iff.mpr e)
    rw [if_neg (by simp [this])]
    simp

theorem rdropWs_cons (a : Char) (l : List Char) :
    rdropWs (a :: l) =
      if rdropWs l = [] then (if isWs a then [] else [a]) else a :: rdropWs l := by
  have h1 : a :: l = [a] ++ l := rfl
  rw [h1, rdropWs_append]
  have h2 : rdropWs [a] = if isWs a then [] else [a] := by
    by_cases h : isWs a <;> simp [rdropWs, List.dropWhile_cons, h]
  rw [h2]
  split <;> rfl

theorem dropWhile_idem (p : Char → Bool) (l : List Char) :
    (l.dropWhile p).dropWhile p = l.dropWhile p := by
  induction l with
  | nil => rfl
  | cons c t ih =>
    rw [List.dropWhile_cons]
    by_cases h : p c
    · rw [if_pos h]; exact ih
    · rw [if_neg h, List.dropWhile_cons, if_neg h]

theorem dropWhile_rdropWs_comm (cs : List Char) :
    (rdropWs cs).dropWhile isWs = rdropWs (cs.dropWhile isWs) := by
  induction cs with
  | nil => rfl
  | cons c t ih =>
    by_cases hc : isWs c
    · rw [List.dropWhile_cons, if_pos hc, rdropWs_cons]
      by_cases ht : rdropWs t = []
      · rw [if_pos ht, if_pos hc]
        simp only [List.dropWhile_nil]
        symm
        rw [rdropWs_eq_nil_iff]
        intro x hx
        exact (rdropWs_eq_nil_iff t).mp ht x ((List.dropWhile_sublist isWs).subset hx)
      · rw [if_neg ht, List.dropWhile_cons, if_pos hc, ih]
    · rw [List.dropWhile_cons, if_neg hc, rdropWs_cons]
      by_cases ht : rdropWs t = []
      · rw [if_pos ht, if_neg hc]
        simp [List.dropWhile_cons, hc]
      · rw [if_neg ht]
        simp [List.dropWhile_cons, hc]

/-! Facts about fence lines and whitespace stripping. -/

theorem isFence_iff (l : String) : isFence l = true ↔ ['`', '`', '`'] <+: l.data := by
  simp [isFence, prefixB_iff]

theorem isFence_ldLine_self {l : String} (h : isFence l = true) : ldLine l = l := by
  rw [isFence_iff] at h
  obtain ⟨t, ht⟩ := h
  have hdw : List.dropWhile isWs (['`', '`', '`'] ++ t) = ['`', '`', '`'] ++ t := by
    rw [show (['`', '`', '`'] ++ t) = '`' :: '`' :: '`' :: t from rfl,
      List.dropWhile_cons, if_neg (by decide)]
  show (⟨l.data.dropWhile isWs⟩ : String) = l
  rw [← ht, hdw, ht]

theorem isFence_false_of_allWs {l : String} (h : lineAllWs l = true) : isFence l = false := by
  cases hd : l.data with
  | nil => simp [isFence, hd, prefixB]
  | cons c t =>
    have hc : isWs c = true := by
      have h2 := h
      simp only [lineAllWs, hd, List.all_cons, Bool.and_eq_true] at h2
      exact h2.1
    have hne : ¬ ('`' = c) := by
      intro e
      rw [← e] at hc
      exact absurd hc (by decide)
    simp [isFence, hd, prefixB, hne]

theorem isFence_false_of_ldLine {l : String} (h : isFence (ldLine l) = false) :
    isFence l = false := by
  cases hf : isFence l
  · rfl
  · exfalso
    rw [isFence_ldLine_self hf, hf] at h
    simp at h

theorem isFence_rdLine {c : String} (h : isFence c = true) : isFence (rdLine c) = true := by
  rw [isFence_iff] at h ⊢
  obtain ⟨t, ht⟩ := h
  show ['`', '`', '`'] <+: rdropWs c.data
  rw [← ht, rdropWs_append]
  split
  · decide
  · exact List.prefix_append _ _

theorem isFence_of_rdLine {l : String} (h : isFence (rdLine l) = true) : isFence l = true := by
  rw [isFence_iff] at h ⊢
  exact h.trans (rdropWs_prefixOf l.data)

theorem ldLine_idem (l : String) : ldLine (ldLine l) = ldLine l := by
  show (⟨((⟨l.data.dropWhile isWs⟩ : String)).data.dropWhile isWs⟩ : String) = _
  rw [show ((⟨l.data.dropWhile isWs⟩ : String)).data = l.data.dropWhile isWs from rfl,
    dropWhile_idem]
  rfl

theorem ldLine_rdLine_comm (l : String) : ldLine (rdLine l) = rdLine (ldLine l) := by
  show (⟨(rdropWs l.data).dropWhile isWs⟩ : String) = ⟨rdropWs (l.data.dropWhile isWs)⟩
  rw [dropWhile_rdropWs_comm]

theorem headingMatch_not_fence {l : String} {lvl : Nat} {hd : String}
    (h : headingMatch l = some (lvl, hd)) : isFence l = false := by
  obtain ⟨h1, h2, _⟩ := headingMatch_spec h
  have hk : 1 ≤ hashCount l := h1 ▸ h2
  unfold hashCount at hk
  cases hdata : l.data with
  | nil => rw [hdata] at hk; simp at hk
  | cons c t =>
    rw [hdata] at hk
    by_cases hc : c = '#'
    · have hne : ¬ ('`' = c) := by rw [hc]; decide
      simp [isFence, hdata, prefixB, hne]
    · rw [List.takeWhile_cons, if_neg (by simpa using hc)] at hk
      simp at hk

/-! Join and split facts for line buffers. -/

theorem joinNl_cons {a : List Char} {rest : List (List Char)} (h : rest ≠ []) :
    joinNl (a :: rest) = a ++ '\n' :: joinNl rest := by
  cases rest with
  | nil => exact absurd rfl h
  | cons y u => rfl

theorem allWs_joinNl {ls : List String} (h : ∀ l ∈ ls, lineAllWs l = true) :
    ∀ c ∈ joinNl (ls.map String.data), isWs c = true := by
  induction ls with
  | nil => intro c hc; simp [joinNl] at hc
  | cons x t ih =>
    intro c hc
    cases t with
    | nil =>
      simp only [List.map_cons, List.map_nil, joinNl] at hc
      have := h x (List.mem_cons_self x [])
      simp only [lineAllWs, List.all_eq_true] at this
      exact this c hc
    | cons y u =>
      rw [List.map_cons, joinNl_cons (by simp)] at hc
      rcases List.mem_append.mp hc with h1 | h1
      · have := h x (List.mem_cons_self x _)
        simp only [lineAllWs, List.all_eq_true] at this
        exact this c h1
      · rcases List.mem_cons.mp h1 with rfl | h2
        · decide
        · exact ih (fun l hl => h l (List.mem_cons_of_mem x hl)) c h2

theorem mem_joinNl {ls : List String} {l : String} (hl : l ∈ ls) {c : Char}
    (hc : c ∈ l.data) : c ∈ joinNl (ls.map String.data) := by
  induction ls with
  | nil => simp at hl
  | cons x t ih =>
    cases t with
    | nil =>
      simp only [List.mem_singleton] at hl
      subst hl
      simpa [joinNl] using hc
    | cons y u =>
      rw [List.map_cons, joinNl_cons (by simp)]
      rcases List.mem_cons.mp hl with rfl | h2
      · exact List.mem_append_left _ hc
      · exact List.mem_append_right _ (List.mem_cons_of_mem _ (ih h2))

/-! Line-level description of `String.trim` on a joined buffer. -/

theorem leftTrimLines_cons₂ (x y : String) (t : List String) :
    leftTrimLines (x :: y :: t) =
      if x.data.dropWhile isWs = [] then leftTrimLines (y :: t) else ldLine x :: y :: t := rfl

theorem rightTrimLines_cons (x : String) (xs : List String) :
    rightTrimLines (x :: xs) =
      if xs.all lineAllWs then [rdLine x] else x :: rightTrimLines xs := rfl

theorem leftTrimLines_ne_nil (ls : List String) : leftTrimLines ls ≠ [] := by
  induction ls with
  | nil => simp [leftTrimLines]
  | cons x xs ih =>
    cases xs with
    | nil => simp [leftTrimLines]
    | cons y t =>
      rw [leftTrimLines_cons₂]
      split
      · exact ih
      · simp

theorem rightTrimLines_ne_nil (ls : List String) : rightTrimLines ls ≠ [] := by
  cases ls with
  | nil => simp [rightTrimLines]
  | cons x xs =>
    rw [rightTrimLines_cons]
    split <;> simp

theorem trimLines_ne_nil (ls : List String) : trimLines ls ≠ [] :=
  leftTrimLines_ne_nil _

theorem joinNl_leftTrimLines (ls : List String) :
    joinNl ((leftTrimLines ls).map String.data) =
      (joinNl (ls.map String.data)).dropWhile isWs := by
  induction ls with
  | nil => rfl
  | cons x xs ih =>
    cases xs with
    | nil => rfl
    | cons y t =>
      rw [List.map_cons, joinNl_cons (by simp), List.dropWhile_append, leftTrimLines_cons₂]
      by_cases hx : x.data.dropWhile isWs = []
      · rw [if_pos hx, ih]
        rw [if_pos (by simp [hx]), List.dropWhile_cons, if_pos (by decide)]
      · rw [if_neg hx, if_neg (by simp [hx])]
        rw [List.map_cons, joinNl_cons (by simp)]
        rfl

theorem joinNl_rightTrimLines (ls : List String) :
    joinNl ((rightTrimLines ls).map String.data) =
      rdropWs (joinNl (ls.map String.data)) := by
  induction ls with
  | nil => rfl
  | cons x xs ih =>
    rw [rightTrimLines_cons]
    by_cases hall : xs.all lineAllWs
    · rw [if_pos hall]
      cases xs with
      | nil => rfl
      | cons y t =>
        have hL : joinNl (([rdLine x]).map String.data) = rdropWs x.data := rfl
        have hR : joinNl ((x :: y :: t).map String.data) =
            x.data ++ '\n' :: joinNl ((y :: t).map String.data) := by
          rw [List.map_cons, joinNl_cons (show List.map String.data (y :: t) ≠ [] by simp)]
        rw [hL, hR, rdropWs_append]
        have hb : rdropWs ('\n' :: joinNl ((y :: t).map String.data)) = [] := by
          rw [rdropWs_eq_nil_iff]
          intro c hc
          rcases List.mem_cons.mp hc with rfl | h
          · decide
          · exact allWs_joinNl (by simpa [List.all_eq_true] using hall) c h
        rw [if_pos hb]
    · rw [if_neg hall]
      cases xs with
      | nil => exact absurd rfl hall
      | cons y t =>
        have hL : joinNl ((x :: rightTrimLines (y :: t)).map String.data) =
            x.data ++ '\n' :: joinNl ((rightTrimLines (y :: t)).map String.data) := by
          rw [List.map_cons, joinNl_cons (show List.map String.data (rightTrimLines (y :: t)) ≠ []
            by simpa using rightTrimLines_ne_nil (y :: t))]
        have hR : joinNl ((x :: y :: t).map String.data) =
            x.data ++ '\n' :: joinNl ((y :: t).map String.data) := by
          rw [List.map_cons, joinNl_cons (show List.map String.data (y :: t) ≠ [] by simp)]
        rw [hL, hR, rdropWs_append]
        have hJ : rdropWs (joinNl ((y :: t).map String.data)) ≠ [] := by
          rw [Ne, rdropWs_eq_nil_iff]
          intro hws
          apply hall
          rw [List.all_eq_true]
          intro l hl
          rw [lineAllWs, List.all_eq_true]
          intro c hc
          exact hws c (mem_joinNl hl hc)
        have hb : rdropWs ('\n' :: joinNl ((y :: t).map String.data)) ≠ [] := by
          rw [rdropWs_cons, if_neg hJ]
          simp
        rw [if_neg hb, rdropWs_cons, if_neg hJ, ih]

theorem jsTrim_join (ls : List String) :
    jsTrim (jsJoinLines ls) = jsJoinLines (trimLines ls) := by
  show (⟨((jsJoinLines ls).data.reverse.dropWhile isWs).reverse.dropWhile isWs⟩ : String) =
    jsJoinLines (trimLines ls)
  have h1 : (jsJoinLines ls).data = joinNl (ls.map String.data) := rfl
  have h2 : (jsJoinLines (trimLines ls)).data =
      joinNl ((leftTrimLines (rightTrimLines ls)).map String.data) := rfl
  have h3 : joinNl ((leftTrimLines (rightTrimLines ls)).map String.data) =
      (rdropWs (joinNl (ls.map String.data))).dropWhile isWs := by
    rw [joinNl_leftTrimLines, joinNl_rightTrimLines]
  show (⟨(rdropWs (jsJoinLines ls).data).dropWhile isWs⟩ : String) = _
  rw [h1]
  cases hjt : jsJoinLines (trimLines ls) with
  | mk d =>
    have : d = (rdropWs (joinNl (ls.map String.data))).dropWhile isWs := by
      rw [← h3, ← h2, hjt]
    rw [this]

theorem mem_leftTrimLines {ls : List String} {y : String} (hy : y ∈ leftTrimLines ls) :
    y = "" ∨ y ∈ ls ∨ ∃ x ∈ ls, y = ldLine x := by
  induction ls with
  | nil =>
    simp only [leftTrimLines, List.mem_singleton] at hy
    exact Or.inl hy
  | cons x xs ih =>
    cases xs with
    | nil =>
      simp only [leftTrimLines, List.mem_singleton] at hy
      exact Or.inr (Or.inr ⟨x, List.mem_cons_self x [], hy⟩)
    | cons z t =>
      rw [leftTrimLines_cons₂] at hy
      split at hy
      · rcases ih hy with h | h | ⟨w, hw, he⟩
        · exact Or.inl h
        · exact Or.inr (Or.inl (List.mem_cons_of_mem x h))
        · exact Or.inr (Or.inr ⟨w, List.mem_cons_of_mem x hw, he⟩)
      · rcases List.mem_cons.mp hy with h | h
        · exact Or.inr (Or.inr ⟨x, List.mem_cons_self x _, h⟩)
        · exact Or.inr (Or.inl (List.mem_cons_of_mem x h))

theorem mem_rightTrimLines {ls : List String} {y : String} (hy : y ∈ rightTrimLines ls) :
    y = "" ∨ y ∈ ls ∨ ∃ x ∈ ls, y = rdLine x := by
  induction ls with
  | nil =>
    simp only [rightTrimLines, List.mem_singleton] at hy
    exact Or.inl hy
  | cons x xs ih =>
    rw [rightTrimLines_cons] at hy
    split at hy
    · simp only [List.mem_singleton] at hy
      exact Or.inr (Or.inr ⟨x, List.mem_cons_self x _, hy⟩)
    · rcases List.mem_cons.mp hy with h | h
      · exact Or.inr (Or.inl (h ▸ List.mem_cons_self x _))
      · rcases ih h with h2 | h2 | ⟨w, hw, he⟩
        · exact Or.inl h2
        · exact Or.inr (Or.inl (List.mem_cons_of_mem x h2))
        · exact Or.inr (Or.inr ⟨w, List.mem_cons_of_mem x hw, he⟩)

theorem noNl_trimLines {ls : List String} (h : ∀ l ∈ ls, '\n' ∉ l.data) :
    ∀ l ∈ trimLines ls, '\n' ∉ l.data := by
  have hr : ∀ l ∈ rightTrimLines ls, '\n' ∉ l.data := by
    intro l hl
    rcases mem_rightTrimLines hl with rfl | h2 | ⟨w, hw, rfl⟩
    · simp
    · exact h l h2
    · intro hmem
      exact h w hw ((rdropWs_prefixOf w.data).sublist.subset hmem)
  intro l hl
  rcases mem_leftTrimLines hl with rfl | h2 | ⟨w, hw, rfl⟩
  · simp
  · exact hr l h2
  · intro hmem
    exact hr w hw ((List.dropWhile_sublist isWs).subset hmem)

theorem jsSplitLines_trim_join (ls : List String) (h : ∀ l ∈ ls, '\n' ∉ l.data) :
    jsSplitLines (jsTrim (jsJoinLines ls)) = trimLines ls := by
  rw [jsTrim_join]
  exact jsSplit_join _ (trimLines_ne_nil ls) (noNl_trimLines h)

theorem splitChar_append_any (sep : Char) (a b : List Char) :
    splitChar sep (a ++ sep :: b) = splitChar sep a ++ splitChar sep b := by
  induction a with
  | nil => simp [splitChar]
  | cons c t ih =>
    by_cases hc : c = sep
    · simp only [List.cons_append, splitChar, List.append_eq, if_pos hc]
      rw [ih]
    · simp only [List.cons_append, splitChar, List.append_eq, if_neg hc]
      rw [ih]
      rcases e : splitChar sep t with _ | ⟨h0, t0⟩
      · exact absurd e (splitChar_ne_nil t)
      · simp

theorem jsSplitLines_join_flatten (ls : List String) (h : ls ≠ []) :
    jsSplitLines (jsJoinLines ls) = (ls.map jsSplitLines).flatten := by
  induction ls with
  | nil => exact absurd rfl h
  | cons x xs ih =>
    cases xs with
    | nil => simp [jsSplitLines, jsJoinLines, joinNl]
    | cons y t =>
      have hdata : (jsJoinLines (x :: y :: t)).data =
          x.data ++ '\n' :: (jsJoinLines (y :: t)).data := by
        show joinNl ((x :: y :: t).map String.data) = _
        rw [List.map_cons, joinNl_cons (show List.map String.data (y :: t) ≠ [] by simp)]
        rfl
      have h1 : jsSplitLines (jsJoinLines (x :: y :: t)) =
          jsSplitLines x ++ jsSplitLines (jsJoinLines (y :: t)) := by
        unfold jsSplitLines
        rw [hdata]
        show (splitChar '\n' (x.data ++ '\n' :: (jsJoinLines (y :: t)).data)).map _ = _
        rw [splitChar_append_any, List.map_append]
        rfl
      rw [h1, ih (by simp)]
      simp

/-! The flat extractor on well-fenced line sequences. -/

theorem cbLoop_out_skip {l : String} (h : isFence l = false) (r : List String) :
    cbLoop (l :: r) .outside = cbLoop r .outside := by
  rw [cbLoop_cons_outside, if_neg (by simp [h])]

theorem cbLoop_collect {body : List String} (hb : ∀ x ∈ body, isFence x = false)
    {c : String} (hc : isFence c = true) (lang : String) (acc : List String)
    (r : List String) :
    cbLoop (body ++ c :: r) (.inside lang acc) =
      mkExample lang (acc ++ body) :: cbLoop r .outside := by
  induction body generalizing acc with
  | nil => simp [cbLoop_cons_inside, hc]
  | cons x b ih =>
    have hx : isFence x = false := hb x (List.mem_cons_self x b)
    rw [List.cons_append, cbLoop_cons_inside, if_neg (by simp [hx])]
    rw [ih (fun y hy => hb y (List.mem_cons_of_mem x hy)) (acc ++ [x])]
    simp

theorem cbLoop_block {o : String} (ho : isFence o = true) {body : List String}
    (hb : ∀ x ∈ body, isFence x = false) {c : String} (hc : isFence c = true)
    (r : List String) :
    cbLoop (o :: (body ++ c :: r)) .outside =
      mkExample (fenceLanguage o) body :: cbLoop r .outside := by
  rw [cbLoop_cons_outside, if_pos (by simp [ho]), cbLoop_collect hb hc (fenceLanguage o) [] r]
  simp

theorem cbLoop_append_no_fence {pre : List String} (h : ∀ l ∈ pre, isFence l = false)
    (d : List String) : cbLoop (pre ++ d) .outside = cbLoop d .outside := by
  induction pre with
  | nil => rfl
  | cons x t ih =>
    rw [List.cons_append, cbLoop_out_skip (h x (List.mem_cons_self x t))]
    exact ih (fun y hy => h y (List.mem_cons_of_mem x hy))

theorem cbLoop_all_not_fence {a : List String} (h : ∀ l ∈ a, isFence l = false) :
    cbLoop a .outside = [] := by
  have h2 := cbLoop_append_no_fence h []
  simpa using h2

theorem cbLoop_chunked_append {a : List String} (h : Chunked a) (d : List String) :
    cbLoop (a ++ d) .outside = cbLoop a .outside ++ cbLoop d .outside := by
  induction h with
  | nil => rfl
  | out l rest hf hr ih =>
    have hl : isFence l = false := isFence_false_of_ldLine hf
    rw [List.cons_append, cbLoop_out_skip hl, cbLoop_out_skip hl, ih]
  | block o body c rest ho hb hc hr ih =>
    rw [show (o :: (body ++ c :: rest)) ++ d = o :: (body ++ c :: (rest ++ d)) by simp]
    rw [cbLoop_block ho hb hc, cbLoop_block ho hb hc, ih]
    simp

theorem allWs_false_of_fence {c : String} (h : isFence c = true) : lineAllWs c = false := by
  cases ha : lineAllWs c
  · rfl
  · rw [isFence_false_of_allWs ha] at h
    exact h.symm ▸ rfl

theorem not_fence_of_allWs_list {a : List String} (h : a.all lineAllWs = true) :
    ∀ l ∈ a, isFence l = false := by
  intro l hl
  rw [List.all_eq_true] at h
  exact isFence_false_of_allWs (h l hl)

theorem rightTrimLines_append_through {c : String} (hc : lineAllWs c = false)
    (body rest : List String) :
    rightTrimLines (body ++ c :: rest) = body ++ rightTrimLines (c :: rest) := by
  induction body with
  | nil => simp
  | cons x b ih =>
    rw [List.cons_append, rightTrimLines_cons, if_neg ?_, ih]
    · rfl
    · intro hall
      rw [List.all_eq_true] at hall
      have := hall c (by simp)
      rw [hc] at this
      exact absurd this (by simp)

theorem chunked_rightTrim {b : List String} (h : Chunked b) :
    Chunked (rightTrimLines b) := by
  induction h with
  | nil => exact Chunked.out "" [] (by decide) Chunked.nil
  | out l rest hf hr ih =>
    rw [rightTrimLines_cons]
    by_cases hall : rest.all lineAllWs
    · rw [if_pos hall]
      refine Chunked.out (rdLine l) [] ?_ Chunked.nil
      rw [ldLine_rdLine_comm]
      cases hrd : isFence (rdLine (ldLine l))
      · rfl
      · rw [isFence_of_rdLine hrd] at hf
        exact hf.symm ▸ rfl
    · rw [if_neg hall]
      exact Chunked.out l _ hf ih
  | block o body c rest ho hb hc hr ih =>
    rw [rightTrimLines_cons, if_neg ?_, rightTrimLines_append_through (allWs_false_of_fence hc),
      rightTrimLines_cons]
    · by_cases hall : rest.all lineAllWs
      · rw [if_pos hall]
        exact Chunked.block o body (rdLine c) [] ho hb (isFence_rdLine hc) Chunked.nil
      · rw [if_neg hall]
        exact Chunked.block o body c _ ho hb hc ih
    · intro hall
      rw [List.all_eq_true] at hall
      have := hall c (by simp)
      rw [allWs_false_of_fence hc] at this
      exact absurd this (by simp)

theorem cbLoop_rightTrim {b : List String} (h : Chunked b) :
    cbLoop (rightTrimLines b) .outside = cbLoop b .outside := by
  induction h with
  | nil => rfl
  | out l rest hf hr ih =>
    have hl : isFence l = false := isFence_false_of_ldLine hf
    rw [rightTrimLines_cons]
    by_cases hall : rest.all lineAllWs
    · have hrd : isFence (rdLine l) = false := by
        cases hx : isFence (rdLine l)
        · rfl
        · rw [isFence_of_rdLine hx] at hl
          exact hl.symm ▸ rfl
      rw [if_pos hall, cbLoop_out_skip hrd, cbLoop_out_skip hl,
        cbLoop_all_not_fence (not_fence_of_allWs_list hall)]
      rfl
    · rw [if_neg hall, cbLoop_out_skip hl, cbLoop_out_skip hl, ih]
  | block o body c rest ho hb hc hr ih =>
    rw [rightTrimLines_cons, if_neg ?_, rightTrimLines_append_through (allWs_false_of_fence hc),
      rightTrimLines_cons]
    · by_cases hall : rest.all lineAllWs
      · rw [if_pos hall]
        rw [show (body ++ [rdLine c] : List String) = body ++ rdLine c :: [] from rfl]
        rw [cbLoop_block ho hb (isFence_rdLine hc), cbLoop_block ho hb hc,
          cbLoop_all_not_fence (not_fence_of_allWs_list hall)]
        rfl
      · rw [if_neg hall, cbLoop_block ho hb hc, cbLoop_block ho hb hc, ih]
    · intro hall
      rw [List.all_eq_true] at hall
      have := hall c (by simp)
      rw [allWs_false_of_fence hc] at this
      exact absurd this (by simp)

theorem chunked_leftTrim {b : List String} (h : Chunked b) :
    Chunked (leftTrimLines b) := by
  induction h with
  | nil => exact Chunked.out "" [] (by decide) Chunked.nil
  | out l rest hf hr ih =>
    cases rest with
    | nil =>
      refine Chunked.out (ldLine l) [] ?_ Chunked.nil
      rw [ldLine_idem]
      exact hf
    | cons r rs =>
      rw [leftTrimLines_cons₂]
      by_cases hld : l.data.dropWhile isWs = []
      · rw [if_pos hld]
        exact ih
      · rw [if_neg hld]
        refine Chunked.out (ldLine l) _ ?_ hr
        rw [ldLine_idem]
        exact hf
  | block o body c rest ho hb hc hr ih =>
    have hne : ¬ o.data.dropWhile isWs = [] := by
      have h1 : ldLine o = o := isFence_ldLine_self ho
      have h2 : o.data.dropWhile isWs = o.data := congrArg String.data h1
      rw [h2]
      rw [isFence_iff] at ho
      obtain ⟨t, ht⟩ := ho
      rw [← ht]
      simp
    cases hbl : body ++ c :: rest with
    | nil => simp at hbl
    | cons z zs =>
      rw [leftTrimLines_cons₂, if_neg hne, isFence_ldLine_self ho, ← hbl]
      exact Chunked.block o body c rest ho hb hc hr

theorem cbLoop_leftTrim {b : List String} (h : Chunked b) :
    cbLoop (leftTrimLines b) .outside = cbLoop b .outside := by
  induction h with
  | nil => rfl
  | out l rest hf hr ih =>
    have hl : isFence l = false := isFence_false_of_ldLine hf
    cases rest with
    | nil =>
      show cbLoop [ldLine l] .outside = cbLoop [l] .outside
      rw [cbLoop_out_skip hf, cbLoop_out_skip hl]
    | cons r rs =>
      rw [leftTrimLines_cons₂]
      by_cases hld : l.data.dropWhile isWs = []
      · rw [if_pos hld, ih, cbLoop_out_skip hl]
      · rw [if_neg hld, cbLoop_out_skip hf, cbLoop_out_skip hl]
  | block o body c rest ho hb hc hr ih =>
    have hne : ¬ o.data.dropWhile isWs = [] := by
      have h1 : ldLine o = o := isFence_ldLine_self ho
      have h2 : o.data.dropWhile isWs = o.data := congrArg String.data h1
      rw [h2]
      rw [isFence_iff] at ho
      obtain ⟨t, ht⟩ := ho
      rw [← ht]
      simp
    cases hbl : body ++ c :: rest with
    | nil => simp at hbl
    | cons z zs =>
      rw [leftTrimLines_cons₂, if_neg hne, isFence_ldLine_self ho]

theorem chunked_trimLines {b : List String} (h : Chunked b) : Chunked (trimLines b) :=
  chunked_leftTrim (chunked_rightTrim h)

theorem cbLoop_trimLines {b : List String} (h : Chunked b) :
    cbLoop (trimLines b) .outside = cbLoop b .outside :=
  (cbLoop_leftTrim (chunked_rightTrim h)).trans (cbLoop_rightTrim h)

/-! Contents of the extracted sections on a heading-segmented document. -/

theorem sectionsLoop_pre_skip {pre : List String}
    (h : ∀ l ∈ pre, headingMatch l = none) (r : List String) (i : Nat) :
    sectionsLoop (pre ++ r) i none = sectionsLoop r (i + pre.length) none := by
  induction pre generalizing i with
  | nil => simp
  | cons x t ih =>
    rw [List.cons_append]
    simp only [sectionsLoop_cons, h x (List.mem_cons_self x t)]
    rw [ih (fun l hl => h l (List.mem_cons_of_mem x hl)) (i + 1)]
    congr 1
    simp
    omega

theorem sectionsLoop_accumulate {b : List String}
    (hb : ∀ l ∈ b, headingMatch l = none) (r : List String) (i : Nat) (s : Section)
    (buf : List String) :
    ∃ s', sectionsLoop (b ++ r) i (some (s, buf)) =
      sectionsLoop r (i + b.length) (some (s', buf ++ b)) := by
  induction b generalizing i s buf with
  | nil => exact ⟨s, by simp⟩
  | cons x t ih =>
    obtain ⟨s', he⟩ := ih (fun l hl => hb l (List.mem_cons_of_mem x hl)) (i + 1)
      (scanLine s x (t ++ r)) (buf ++ [x])
    refine ⟨s', ?_⟩
    rw [List.cons_append]
    simp only [sectionsLoop_cons, hb x (List.mem_cons_self x t)]
    rw [he]
    have h1 : i + 1 + t.length = i + (x :: t).length := by simp; omega
    have h2 : (buf ++ [x]) ++ t = buf ++ x :: t := by simp
    rw [h1, h2]

theorem sectionsLoop_contents {segs : List (String × List String)}
    (hs : ∀ p ∈ segs, (headingMatch p.1).isSome ∧ ∀ l ∈ p.2, headingMatch l = none)
    (i : Nat) (s : Section) (buf : List String) :
    (sectionsLoop (docLines segs) i (some (s, buf))).map Section.content =
      jsTrim (jsJoinLines buf) :: segs.map (fun p => jsTrim (jsJoinLines p.2)) := by
  induction segs generalizing i s buf with
  | nil => simp [docLines, sectionsLoop_nil_some, closeSection]
  | cons p t ih =>
    obtain ⟨h, b⟩ := p
    obtain ⟨hh, hbody⟩ := hs (h, b) (List.mem_cons_self _ _)
    obtain ⟨⟨lvl, hd⟩, hm⟩ := Option.isSome_iff_exists.mp hh
    show (sectionsLoop (h :: (b ++ docLines t)) i (some (s, buf))).map _ = _
    simp only [sectionsLoop_cons, hm]
    obtain ⟨s', he⟩ :=
      sectionsLoop_accumulate hbody (docLines t) (i + 1) (mkSection lvl hd i) []
    rw [he, List.map_append, ih (fun q hq => hs q (List.mem_cons_of_mem _ hq))]
    simp [closeSection]

theorem extractSections_contents {md : String} {pre : List String}
    {segs : List (String × List String)}
    (hsplit : jsSplitLines md = pre ++ docLines segs)
    (hpre : ∀ l ∈ pre, headingMatch l = none)
    (hs : ∀ p ∈ segs, (headingMatch p.1).isSome ∧ ∀ l ∈ p.2, headingMatch l = none) :
    (extractSections md).map Section.content =
      segs.map (fun p => jsTrim (jsJoinLines p.2)) := by
  unfold extractSections extractSectionsL
  rw [hsplit, sectionsLoop_pre_skip hpre]
  cases segs with
  | nil => rfl
  | cons p t =>
    obtain ⟨h, b⟩ := p
    obtain ⟨hh, hbody⟩ := hs (h, b) (List.mem_cons_self _ _)
    obtain ⟨⟨lvl, hd⟩, hm⟩ := Option.isSome_iff_exists.mp hh
    show (sectionsLoop (h :: (b ++ docLines t)) _ none).map _ = _
    simp only [sectionsLoop_cons, hm]
    obtain ⟨s', he⟩ :=
      sectionsLoop_accumulate hbody (docLines t) _ (mkSection lvl hd _) []
    rw [he, List.nil_append,
      sectionsLoop_contents (fun q hq => hs q (List.mem_cons_of_mem _ hq))]
    simp

/-! Assembly of the flat/section-scoped code-block correspondence. -/

theorem mem_docLines {segs : List (String × List String)} {p : String × List String}
    (hp : p ∈ segs) {l : String} (hl : l ∈ p.2) : l ∈ docLines segs := by
  induction segs with
  | nil => simp at hp
  | cons q t ih =>
    show l ∈ q.1 :: (q.2 ++ docLines t)
    rcases List.mem_cons.mp hp with rfl | h2
    · exact List.mem_cons_of_mem _ (List.mem_append_left _ hl)
    · exact List.mem_cons_of_mem _ (List.mem_append_right _ (ih h2))

theorem cbLoop_docLines (segs : List (String × List String))
    (hs : ∀ p ∈ segs, isFence p.1 = false ∧ Chunked p.2) :
    cbLoop (docLines segs) .outside =
      (segs.map (fun p => cbLoop p.2 .outside)).flatten := by
  induction segs with
  | nil => rfl
  | cons p t ih =>
    obtain ⟨h, b⟩ := p
    obtain ⟨hf, hch⟩ := hs (h, b) (List.mem_cons_self _ _)
    show cbLoop (h :: (b ++ docLines t)) .outside = _
    rw [cbLoop_out_skip hf, cbLoop_chunked_append hch,
      ih (fun q hq => hs q (List.mem_cons_of_mem _ hq))]
    simp

theorem cbLoop_flatten_trim (segs : List (String × List String))
    (h : ∀ p ∈ segs, Chunked p.2) :
    cbLoop ((segs.map (fun p => trimLines p.2)).flatten) .outside =
      (segs.map (fun p => cbLoop p.2 .outside)).flatten := by
  induction segs with
  | nil => rfl
  | cons p t ih =>
    simp only [List.map_cons, List.flatten_cons]
    rw [cbLoop_chunked_append (chunked_trimLines (h p (List.mem_cons_self _ _))),
      cbLoop_trimLines (h p (List.mem_cons_self _ _)),
      ih (fun q hq => h q (List.mem_cons_of_mem _ hq))]

/-- Claim C1 (amended): for every document whose lines decompose into
fence-free, heading-free leading prose followed by heading-led segments
whose bodies contain no heading-pattern line and are well-fenced (every
triple-backtick line opens or closes a block completed within its own
segment, and no fence line is indented), the code blocks extracted from
the newline-concatenation of all section contents are exactly the
document's flat `codeExamples` list — none lost, none duplicated. -/
theorem section_content_blocks_match_flat (md : String) (pre : List String)
    (segs : List (String × List String))
    (hsplit : jsSplitLines md = pre ++ docLines segs)
    (hpre : ∀ l ∈ pre, headingMatch l = none ∧ isFence l = false)
    (hs : ∀ p ∈ segs, (headingMatch p.1).isSome ∧
      (∀ l ∈ p.2, headingMatch l = none) ∧ Chunked p.2) :
    extractCodeBlocks (jsJoinLines ((extractSections md).map Section.content)) =
      extractCodeBlocks md := by
  have hcont : (extractSections md).map Section.content =
      segs.map (fun p => jsTrim (jsJoinLines p.2)) :=
    extractSections_contents hsplit (fun l hl => (hpre l hl).1)
      (fun p hp => ⟨(hs p hp).1, (hs p hp).2.1⟩)
  have hnoNl : ∀ p ∈ segs, ∀ l ∈ p.2, '\n' ∉ l.data := by
    intro p hp l hl
    apply jsSplitLines_noNl md
    rw [hsplit]
    exact List.mem_append_right _ (mem_docLines hp hl)
  have hfence : ∀ p ∈ segs, isFence p.1 = false ∧ Chunked p.2 := by
    intro p hp
    obtain ⟨⟨lvl, hd⟩, hm⟩ := Option.isSome_iff_exists.mp (hs p hp).1
    exact ⟨headingMatch_not_fence hm, (hs p hp).2.2⟩
  have hflat : extractCodeBlocks md =
      (segs.map (fun p => cbLoop p.2 .outside)).flatten := by
    unfold extractCodeBlocks extractCodeBlocksL
    rw [hsplit, cbLoop_append_no_fence (fun l hl => (hpre l hl).2)]
    exact cbLoop_docLines segs hfence
  rw [hcont, hflat]
  cases hseg : segs with
  | nil => rfl
  | cons q t =>
    unfold extractCodeBlocks extractCodeBlocksL
    rw [jsSplitLines_join_flatten _ (by simp)]
    have hmap : ((q :: t).map (fun p => jsTrim (jsJoinLines p.2))).map jsSplitLines =
        (q :: t).map (fun p => trimLines p.2) := by
      rw [List.map_map]
      apply List.map_congr_left
      intro p hp
      exact jsSplitLines_trim_join p.2 (hnoNl p (hseg ▸ hp))
    rw [hmap, cbLoop_flatten_trim _ (fun p hp => (hfence p (hseg ▸ hp)).2)]

/-- Claim C1 (counterexample): the claim as stated also covers documents
whose fenced code lies before the first heading; there the flat list keeps
the block while the (empty) section view loses it. -/
theorem flat_block_lost_before_first_heading :
    extractCodeBlocks (jsJoinLines ((extractSections docCodeBeforeHeading).map
      Section.content)) = [] ∧
    extractCodeBlocks docCodeBeforeHeading = [⟨"js", "x", 1, "implementation"⟩] :=
  ⟨rfl, rfl⟩

/-- Claim C1 witness: a two-section document with leading prose, one closed
fenced block in the first section, satisfying the amended hypotheses. -/
theorem section_content_blocks_match_flat_witness :
    extractCodeBlocks (jsJoinLines ((extractSections docTwoSections).map Section.content)) =
      extractCodeBlocks docTwoSections :=
  section_content_blocks_match_flat docTwoSections ["intro"]
    [("# A", ["text", "```js", "code", "```", "done"]), ("# B", ["more"])]
    (by decide) (by decide)
    (by
      intro p hp
      simp only [List.mem_cons, List.mem_singleton] at hp
      rcases hp with rfl | rfl | h
      · exact ⟨by decide, by decide,
          Chunked.out "text" _ (by decide)
            (Chunked.block "```js" ["code"] "```" ["done"] (by decide) (by decide) (by decide)
              (Chunked.out "done" [] (by decide) Chunked.nil))⟩
      · exact ⟨by decide, by decide, Chunked.out "more" [] (by decide) Chunked.nil⟩
      · exact absurd h (by simp))

end StunkDocs
